import Mathlib

/-!
Verification development for the TeNeS core (`src/tenes.cpp`).

The file shallowly embeds the parts of `TeNeS<ptensor>` that the claims
C1..C10 are about: the lattice bookkeeping, the simple-update write-back,
the full-update control flow, the observable engine (`measure_onesite`,
`measure_twosite`, `measure_correlation`) and the checkpoint save/load
paths.  Scalars are modelled exactly (ℚ); the dense tensor-algebra
collaborators (mptensor contractions, SVD, MPI broadcast) that the spec
declares external are modelled by their contractual semantics, and pieces
of the repository that are not among the given sources (`Lattice.hpp`,
`PEPS_Basics.hpp`, `Square_lattice_CTM.hpp`) are modelled from the spec,
as marked in the corresponding doc comments.
-/

namespace TenesModel

/-- Unit cell of the periodic square lattice, as used by `tenes.cpp`
(`LX`, `LY`, `N_UNIT = LX*LY`; a site has flat index `i` with
`x = i % LX`, `y = i / LX`, cf. lines 490-497 and 814-815). -/
structure Lattice where
  LX : ℕ
  LY : ℕ
  hLX : 0 < LX
  hLY : 0 < LY

namespace Lattice

def N_UNIT (lat : Lattice) : ℕ := lat.LX * lat.LY

/-- `lattice.x(i) = i % LX` (the code computes `source % LX`). -/
def xOf (lat : Lattice) (i : ℕ) : ℕ := i % lat.LX

/-- `lattice.y(i) = i / LX` (the code computes `source / LX`). -/
def yOf (lat : Lattice) (i : ℕ) : ℕ := i / lat.LX

/-- `lattice.index(x, y)`: flat site index of coordinates `(x, y)`. -/
def index (lat : Lattice) (x y : ℕ) : ℕ := x + lat.LX * y

/-- Modelled from the spec: the "periodic neighbor/offset lookup" of the
unit-cell provider (`Lattice::other` of `Lattice.hpp`, which is not among
the given sources): displace a site by `(dx, dy)` with periodic
wraparound in both directions. -/
def other (lat : Lattice) (i : ℕ) (dx dy : ℤ) : ℕ :=
  lat.index ((((lat.xOf i : ℤ) + dx) % (lat.LX : ℤ)).toNat)
    ((((lat.yOf i : ℤ) + dy) % (lat.LY : ℤ)).toNat)

/-- Horizontal displacement of each leg: legs 0 and 2 are the
x-direction bonds, legs 1 and 3 the y-direction bonds. -/
def legDx : Fin 4 → ℤ
  | 0 => -1
  | 1 => 0
  | 2 => 1
  | 3 => 0

def legDy : Fin 4 → ℤ
  | 0 => 0
  | 1 => 1
  | 2 => 0
  | 3 => -1

/-- Modelled from the spec: `Lattice::neighbor(site, leg)` — the
nearest-neighbor site across `leg`. -/
def neighbor (lat : Lattice) (i : ℕ) (leg : Fin 4) : ℕ :=
  lat.other i (legDx leg) (legDy leg)

end Lattice

/-- The opposing leg `(leg + 2) % 4`, as computed by `simple_update`
(line 366 of `tenes.cpp`). -/
def oppLeg (leg : Fin 4) : Fin 4 := leg + 2

theorem oppLeg_oppLeg : ∀ leg : Fin 4, oppLeg (oppLeg leg) = leg := by
  decide

theorem legDx_oppLeg : ∀ leg : Fin 4, Lattice.legDx (oppLeg leg) = -Lattice.legDx leg := by
  decide

theorem legDy_oppLeg : ∀ leg : Fin 4, Lattice.legDy (oppLeg leg) = -Lattice.legDy leg := by
  decide

namespace Lattice

theorem xOf_index (lat : Lattice) (x y : ℕ) (hx : x < lat.LX) :
    lat.xOf (lat.index x y) = x := by
  simp only [xOf, index]
  rw [Nat.add_mul_mod_self_left, Nat.mod_eq_of_lt hx]

theorem yOf_index (lat : Lattice) (x y : ℕ) (hx : x < lat.LX) :
    lat.yOf (lat.index x y) = y := by
  simp only [yOf, index]
  rw [Nat.add_mul_div_left _ _ lat.hLX, Nat.div_eq_of_lt hx, Nat.zero_add]

theorem emod_toNat_lt (a : ℤ) (n : ℕ) (hn : 0 < n) : (a % (n : ℤ)).toNat < n := by
  have hne : (n : ℤ) ≠ 0 := by exact_mod_cast Nat.pos_iff_ne_zero.mp hn
  have h1 : 0 ≤ a % (n : ℤ) := Int.emod_nonneg a hne
  have h2 : a % (n : ℤ) < (n : ℤ) := Int.emod_lt_of_pos a (by exact_mod_cast hn)
  omega

theorem other_lt (lat : Lattice) (i : ℕ) (dx dy : ℤ) :
    lat.other i dx dy < lat.N_UNIT := by
  have hx := emod_toNat_lt ((lat.xOf i : ℤ) + dx) lat.LX lat.hLX
  have hy := emod_toNat_lt ((lat.yOf i : ℤ) + dy) lat.LY lat.hLY
  simp only [other, index, N_UNIT]
  calc (((lat.xOf i : ℤ) + dx) % (lat.LX : ℤ)).toNat
        + lat.LX * (((lat.yOf i : ℤ) + dy) % (lat.LY : ℤ)).toNat
      < lat.LX * ((((lat.yOf i : ℤ) + dy) % (lat.LY : ℤ)).toNat + 1) := by
        rw [Nat.mul_succ]
        omega
    _ ≤ lat.LX * lat.LY := Nat.mul_le_mul_left _ hy

theorem emod_add_cancel (a d : ℤ) (n : ℕ) (hn : 0 < n) (ha : 0 ≤ a) (ha2 : a < n) :
    (((a + d) % (n : ℤ)).toNat + -d) % (n : ℤ) = a := by
  have hne : (n : ℤ) ≠ 0 := by exact_mod_cast Nat.pos_iff_ne_zero.mp hn
  have h1 : 0 ≤ (a + d) % (n : ℤ) := Int.emod_nonneg _ hne
  rw [Int.toNat_of_nonneg h1]
  have key : ((a + d) % (n : ℤ) + -d) % (n : ℤ) = ((a + d) + -d) % (n : ℤ) := by
    conv_lhs => rw [Int.add_emod, Int.emod_emod_of_dvd _ dvd_rfl, ← Int.add_emod]
  rw [key]
  have : a + d + -d = a := by ring
  rw [this, Int.emod_eq_of_lt ha ha2]

theorem other_other (lat : Lattice) (i : ℕ) (hi : i < lat.N_UNIT) (dx dy : ℤ) :
    lat.other (lat.other i dx dy) (-dx) (-dy) = i := by
  have hxlt : lat.xOf i < lat.LX := Nat.mod_lt _ lat.hLX
  have hylt : lat.yOf i < lat.LY := by
    have := lat.hLX
    have := lat.hLY
    simp only [yOf]
    exact Nat.div_lt_of_lt_mul (by simpa [N_UNIT, Nat.mul_comm] using hi)
  have hxlt2 := emod_toNat_lt ((lat.xOf i : ℤ) + dx) lat.LX lat.hLX
  set j := lat.other i dx dy with hj
  have hjx : lat.xOf j = (((lat.xOf i : ℤ) + dx) % (lat.LX : ℤ)).toNat := by
    rw [hj]
    exact xOf_index lat _ _ hxlt2
  have hjy : lat.yOf j = (((lat.yOf i : ℤ) + dy) % (lat.LY : ℤ)).toNat := by
    rw [hj]
    exact yOf_index lat _ _ hxlt2
  have hx' : ((((lat.xOf i : ℤ) + dx) % (lat.LX : ℤ)).toNat + -dx) % (lat.LX : ℤ)
      = (lat.xOf i : ℤ) :=
    emod_add_cancel _ dx lat.LX lat.hLX (by exact_mod_cast Nat.zero_le _)
      (by exact_mod_cast hxlt)
  have hy' : ((((lat.yOf i : ℤ) + dy) % (lat.LY : ℤ)).toNat + -dy) % (lat.LY : ℤ)
      = (lat.yOf i : ℤ) :=
    emod_add_cancel _ dy lat.LY lat.hLY (by exact_mod_cast Nat.zero_le _)
      (by exact_mod_cast hylt)
  simp only [other, hjx, hjy, hx', hy']
  simp only [Int.toNat_ofNat, Int.toNat_natCast]
  simp only [index, xOf, yOf]
  exact Nat.mod_add_div i lat.LX

theorem neighbor_lt (lat : Lattice) (i : ℕ) (leg : Fin 4) :
    lat.neighbor i leg < lat.N_UNIT := other_lt lat i _ _

theorem neighbor_neighbor (lat : Lattice) (i : ℕ) (hi : i < lat.N_UNIT) (leg : Fin 4) :
    lat.neighbor (lat.neighbor i leg) (oppLeg leg) = i := by
  simp only [neighbor, legDx_oppLeg leg, legDy_oppLeg leg]
  exact other_other lat i hi _ _

end Lattice

/-! ## Simple update (`TeNeS::simple_update`, lines 351-386)

The state touched by `simple_update` is the vector of site tensors `Tn`
and the per-site, per-leg bond spectra `lambda_tensor`.  The tensor
payloads are abstract (`T`); the kernel `Simple_update_bond` lives in
`PEPS_Basics.hpp`, which is not among the given sources, so it is kept
as an abstract parameter returning the two refitted site tensors and
the truncated spectrum `lambda_c`; only the write-back (lines 367-373)
is concrete, exactly as in the source. -/

/-- The per-site state owned by the simple-update engine:
`Tn[i]` and `lambda_tensor[i][leg]`. -/
structure SUState (T : Type) where
  Tn : ℕ → T
  lambda : ℕ → Fin 4 → List ℚ

/-- An entry of `NNOperators` (a bond with an assigned gate `op`). -/
structure NNOp (G : Type) where
  source_site : ℕ
  source_leg : Fin 4
  op : G

/-- The kernel signature of `Simple_update_bond`: from the two site
tensors, their lambda vectors, the gate and the bond leg it produces
`(Tn1_new, Tn2_new, lambda_c)`. -/
abbrev SUBondFn (T G : Type) :=
  T → T → (Fin 4 → List ℚ) → (Fin 4 → List ℚ) → G → Fin 4 → T × T × List ℚ

/-- One iteration of the inner loop of `simple_update`
(lines 362-374): call `Simple_update_bond`, then write `lambda_c` to
`lambda_tensor[source][source_leg]` and
`lambda_tensor[target][target_leg]` and write back the two new site
tensors (`Tn[source] = Tn1_new; Tn[target] = Tn2_new`, in this order,
so on a self-bond the target write wins). -/
def simple_update_bond_step {T G : Type} (lat : Lattice) (bondFn : SUBondFn T G)
    (st : SUState T) (up : NNOp G) : SUState T :=
  let source := up.source_site
  let source_leg := up.source_leg
  let target := lat.neighbor source source_leg
  let target_leg := oppLeg source_leg
  let r := bondFn (st.Tn source) (st.Tn target) (st.lambda source) (st.lambda target)
    up.op source_leg
  { Tn := fun i => if i = target then r.2.1 else if i = source then r.1 else st.Tn i
    lambda := fun i l =>
      if i = target ∧ l = target_leg then r.2.2
      else if i = source ∧ l = source_leg then r.2.2
      else st.lambda i l }

/-- One Trotter step: one pass over the ordered bond list (line 362). -/
def simple_update_pass {T G : Type} (lat : Lattice) (bondFn : SUBondFn T G)
    (ups : List (NNOp G)) (st : SUState T) : SUState T :=
  ups.foldl (simple_update_bond_step lat bondFn) st

/-- `TeNeS::simple_update`: `num_simple_step` passes over the bond
list (the outer loop of line 361). -/
def simple_update_run {T G : Type} (lat : Lattice) (bondFn : SUBondFn T G)
    (nsteps : ℕ) (ups : List (NNOp G)) (st : SUState T) : SUState T :=
  Nat.iterate (simple_update_pass lat bondFn ups) nsteps st

/-- C6: with zero configured Trotter steps, `simple_update` performs no
bond update: the whole state — every site tensor `Tn[i]` and every
lambda spectrum `lambda_tensor[i][j]` — is identical on exit to its
value on entry. -/
theorem simple_update_zero_steps {T G : Type} (lat : Lattice) (bondFn : SUBondFn T G)
    (nsteps : ℕ) (ups : List (NNOp G)) (st : SUState T) (h : nsteps = 0) :
    simple_update_run lat bondFn nsteps ups st = st := by
  subst h
  rfl

/-- Witness for C6 at a concrete instantiation. -/
theorem simple_update_zero_steps_wit :
    (0 : ℕ) = 0 ∧
      simple_update_run ⟨1, 1, Nat.one_pos, Nat.one_pos⟩
          (fun t _ _ _ _ _ => (t, t, [])) 0 ([] : List (NNOp Unit))
          ⟨fun _ => (), fun _ _ => []⟩
        = ⟨fun _ => (), fun _ _ => []⟩ :=
  ⟨rfl, simple_update_zero_steps _ _ _ _ _ rfl⟩

/-! ## C10: the two stored copies of each bond's lambda spectrum agree -/

/-- The mirrored-lambda invariant: for every site `s` of the unit cell
and leg `l`, `lambda_tensor[s][l]` and the copy stored at the
neighboring site's opposing leg are equal. -/
def LambdaMirror {T : Type} (lat : Lattice) (st : SUState T) : Prop :=
  ∀ s, s < lat.N_UNIT → ∀ l : Fin 4,
    st.lambda s l = st.lambda (lat.neighbor s l) (oppLeg l)

/-- Lambda initialization of `initialize_tensors` (lines 233-237):
`lambda[j] = std::vector<double>(vdim[j], 1.0)`. -/
def init_lambda (vdim : ℕ → Fin 4 → ℕ) : ℕ → Fin 4 → List ℚ :=
  fun s l => List.replicate (vdim s l) 1

/-- C10: the two stored copies of each bond's lambda spectrum always
agree.  (a) After initialization every entry is exactly 1 with length
the leg's virtual dimension, and the invariant holds given the
lattice's leg-dimension consistency; (b) every simple-update bond step
preserves the invariant, because it writes the same truncated spectrum
`lambda_c` to the source leg and to the opposing target leg. -/
theorem lambda_mirror_invariant {T G : Type} (lat : Lattice)
    (vdim : ℕ → Fin 4 → ℕ)
    (hdim : ∀ s, s < lat.N_UNIT → ∀ l : Fin 4,
      vdim s l = vdim (lat.neighbor s l) (oppLeg l))
    (Tn0 : ℕ → T) (bondFn : SUBondFn T G) :
    ((∀ s (l : Fin 4), init_lambda vdim s l = List.replicate (vdim s l) 1) ∧
      LambdaMirror lat ⟨Tn0, init_lambda vdim⟩) ∧
    (∀ (st : SUState T) (up : NNOp G), up.source_site < lat.N_UNIT →
      LambdaMirror lat st →
      LambdaMirror lat (simple_update_bond_step lat bondFn st up)) := by
  constructor
  · constructor
    · intro s l
      rfl
    · intro s hs l
      simp only [init_lambda]
      rw [hdim s hs l]
  · intro st up hup hmir
    intro s hs l
    set source := up.source_site with hsource
    set source_leg := up.source_leg with hsl
    set target := lat.neighbor source source_leg with htarget
    set target_leg := oppLeg source_leg with htl
    have htlt : target < lat.N_UNIT := lat.neighbor_lt source source_leg
    have hback : lat.neighbor target target_leg = source := by
      rw [htarget, htl]
      exact lat.neighbor_neighbor source hup source_leg
    simp only [simple_update_bond_step, LambdaMirror]
    by_cases hB : s = target ∧ l = target_leg
    · -- mirror of the target write is the source write
      have hs2 : lat.neighbor s l = source := by
        rw [hB.1, hB.2]; exact hback
      have hl2 : oppLeg l = source_leg := by
        rw [hB.2, htl, oppLeg_oppLeg]
      rw [if_pos hB]
      by_cases hBB : lat.neighbor s l = target ∧ oppLeg l = target_leg
      · rw [if_pos hBB]
      · rw [if_neg hBB, if_pos ⟨hs2, hl2⟩]
    · by_cases hA : s = source ∧ l = source_leg
      · -- mirror of the source write is the target write
        have hs2 : lat.neighbor s l = target := by rw [hA.1, hA.2, htarget]
        have hl2 : oppLeg l = target_leg := by rw [hA.2, htl]
        rw [if_neg hB, if_pos hA, if_pos ⟨hs2, hl2⟩]
      · -- untouched pair: both sides fall through to the old state
        have hinv : lat.neighbor (lat.neighbor s l) (oppLeg l) = s :=
          lat.neighbor_neighbor s hs l
        have hnb : ¬(lat.neighbor s l = target ∧ oppLeg l = target_leg) := by
          intro hc
          apply hA
          have hleq : l = source_leg := by
            have h2 : oppLeg (oppLeg l) = oppLeg (oppLeg source_leg) := by
              rw [hc.2, htl]
            rwa [oppLeg_oppLeg, oppLeg_oppLeg] at h2
          refine ⟨?_, hleq⟩
          rw [← hinv, hc.1, hc.2, hback]
        have hna : ¬(lat.neighbor s l = source ∧ oppLeg l = source_leg) := by
          intro hc
          apply hB
          have hleq : l = target_leg := by
            have h2 : oppLeg (oppLeg l) = oppLeg source_leg := by rw [hc.2]
            rw [oppLeg_oppLeg] at h2
            rw [h2, htl]
          refine ⟨?_, hleq⟩
          rw [← hinv, hc.1, hc.2, htarget]
        rw [if_neg hB, if_neg hA, if_neg hnb, if_neg hna]
        exact hmir s hs l

/-- Witness for C10 at a concrete instantiation (2×2 cell, uniform
virtual dimension 2, trivial bond kernel). -/
theorem lambda_mirror_invariant_wit :
    ((∀ s (l : Fin 4), init_lambda (fun _ _ => 2) s l = List.replicate 2 1) ∧
      LambdaMirror ⟨2, 2, Nat.zero_lt_two, Nat.zero_lt_two⟩
        ⟨fun _ => (), init_lambda (fun _ _ => 2)⟩) ∧
    (∀ (st : SUState Unit) (up : NNOp Unit),
      up.source_site < (Lattice.mk 2 2 Nat.zero_lt_two Nat.zero_lt_two).N_UNIT →
      LambdaMirror ⟨2, 2, Nat.zero_lt_two, Nat.zero_lt_two⟩ st →
      LambdaMirror ⟨2, 2, Nat.zero_lt_two, Nat.zero_lt_two⟩
        (simple_update_bond_step ⟨2, 2, Nat.zero_lt_two, Nat.zero_lt_two⟩
          (fun t1 t2 _ _ _ _ => (t1, t2, [])) st up)) :=
  lambda_mirror_invariant ⟨2, 2, Nat.zero_lt_two, Nat.zero_lt_two⟩ (fun _ _ => 2)
    (fun _ _ _ => rfl) (fun _ => ()) (fun t1 t2 _ _ _ _ => (t1, t2, []))

/-! ## Full update (`TeNeS::full_update`, lines 388-519)

`full_update` is modelled by the sequence of environment/bond events it
issues: the initial `update_CTM()` guarded by `num_full_step > 0`
(lines 392-394), then for each step and each bond a `Full_update_bond`
call followed by the environment refresh — either the fast path's two
directional moves (lines 488-503) or a full `update_CTM()` (line 505).
The directional moves (`Left_move` etc.) and `Full_update_bond` live in
`Square_lattice_CTM.hpp` / `PEPS_Basics.hpp`, which are not among the
given sources; here only their invocation pattern matters, so the trace
records which of them is called with which row/column argument. -/

inductive FUEvent where
  | updateCTM : FUEvent
  | fullBond (source : ℕ) (leg : Fin 4) : FUEvent
  | leftMove (x : ℕ) : FUEvent
  | rightMove (x : ℕ) : FUEvent
  | topMove (y : ℕ) : FUEvent
  | bottomMove (y : ℕ) : FUEvent
deriving DecidableEq

/-- `NNOperator::is_horizontal`: legs 0 and 2 (the x-direction bonds)
are horizontal. -/
def legIsHorizontal (leg : Fin 4) : Bool := leg.val % 2 = 0

/-- The fast-full-update refresh of lines 488-503: for a horizontal
bond, `Left_move` at the source's column and `Right_move` at the
target's column; for a vertical bond, `Top_move` at the source's row
and `Bottom_move` at the target's row. -/
def fastRefresh (lat : Lattice) (source : ℕ) (leg : Fin 4) : List FUEvent :=
  let target := lat.neighbor source leg
  if legIsHorizontal leg then
    [FUEvent.leftMove (source % lat.LX), FUEvent.rightMove (target % lat.LX)]
  else
    [FUEvent.topMove (source / lat.LX), FUEvent.bottomMove (target / lat.LX)]

/-- Events of one bond iteration of the inner loop (lines 403-506):
the `Full_update_bond` call, then the environment refresh selected by
`peps_parameters.Full_Use_FastFullUpdate`. -/
def bondStepEvents {G : Type} (fast : Bool) (lat : Lattice) (up : NNOp G) : List FUEvent :=
  FUEvent.fullBond up.source_site up.source_leg ::
    (if fast then fastRefresh lat up.source_site up.source_leg else [FUEvent.updateCTM])

/-- The event trace of `TeNeS::full_update`: the guarded initial
`update_CTM()` and `num_full_step` passes over the bond list. -/
def full_update_trace {G : Type} (nsteps : ℕ) (fast : Bool) (lat : Lattice)
    (ups : List (NNOp G)) : List FUEvent :=
  (if 0 < nsteps then [FUEvent.updateCTM] else []) ++
    (List.range nsteps).flatMap (fun _ => ups.flatMap (bondStepEvents fast lat))

/-- C7: whenever the configured number of full-update steps is
positive, the very first event of `full_update` is the complete CTM
environment computation, and every `Full_update_bond` event is
preceded by an `update_CTM` event. -/
theorem full_update_ctm_before_bonds {G : Type} (nsteps : ℕ) (fast : Bool)
    (lat : Lattice) (ups : List (NNOp G)) (h : 0 < nsteps) :
    (full_update_trace nsteps fast lat ups).head? = some FUEvent.updateCTM ∧
    ∀ (i : ℕ) (hi : i < (full_update_trace nsteps fast lat ups).length)
      (s : ℕ) (l : Fin 4),
      (full_update_trace nsteps fast lat ups).get ⟨i, hi⟩ = FUEvent.fullBond s l →
      ∃ (j : ℕ) (hj : j < (full_update_trace nsteps fast lat ups).length),
        j < i ∧ (full_update_trace nsteps fast lat ups).get ⟨j, hj⟩ = FUEvent.updateCTM := by
  have htr : full_update_trace nsteps fast lat ups =
      FUEvent.updateCTM :: (List.range nsteps).flatMap
        (fun _ => ups.flatMap (bondStepEvents fast lat)) := by
    simp only [full_update_trace, if_pos h]
    rfl
  constructor
  · rw [htr]
    rfl
  · intro i hi s l hget
    have hzero : ∀ hz : 0 < (full_update_trace nsteps fast lat ups).length,
        (full_update_trace nsteps fast lat ups).get ⟨0, hz⟩ = FUEvent.updateCTM := by
      intro hz
      rw [List.get_of_eq htr]
      rfl
    have hi0 : i ≠ 0 := by
      intro h0
      subst h0
      rw [hzero hi] at hget
      exact FUEvent.noConfusion hget
    exact ⟨0, by omega, by omega, hzero _⟩

/-- Witness for C7 at a concrete instantiation. -/
theorem full_update_ctm_before_bonds_wit :
    (0 : ℕ) < 1 ∧
    ((full_update_trace 1 false ⟨1, 1, Nat.one_pos, Nat.one_pos⟩
        ([] : List (NNOp Unit))).head? = some FUEvent.updateCTM ∧
    ∀ (i : ℕ) (hi : i < (full_update_trace 1 false ⟨1, 1, Nat.one_pos, Nat.one_pos⟩
        ([] : List (NNOp Unit))).length) (s : ℕ) (l : Fin 4),
      (full_update_trace 1 false ⟨1, 1, Nat.one_pos, Nat.one_pos⟩
        ([] : List (NNOp Unit))).get ⟨i, hi⟩ = FUEvent.fullBond s l →
      ∃ (j : ℕ) (hj : j < (full_update_trace 1 false ⟨1, 1, Nat.one_pos, Nat.one_pos⟩
        ([] : List (NNOp Unit))).length),
        j < i ∧ (full_update_trace 1 false ⟨1, 1, Nat.one_pos, Nat.one_pos⟩
          ([] : List (NNOp Unit))).get ⟨j, hj⟩ = FUEvent.updateCTM) :=
  ⟨Nat.one_pos, full_update_ctm_before_bonds 1 false _ _ Nat.one_pos⟩

/-- The row/column argument of a partial directional move, if the
event is one. -/
def moveIndex : FUEvent → Option ℕ
  | FUEvent.leftMove x => some x
  | FUEvent.rightMove x => some x
  | FUEvent.topMove y => some y
  | FUEvent.bottomMove y => some y
  | _ => none

/-- C9 counterexample: on a 2×1 unit cell with the fast-update flag
enabled, the refresh after updating the horizontal bond at site 0,
leg 2 consists of a left move at column 0 and a right move at column 1
— two distinct columns, so it is not true that only the one row or
column containing the updated bond is refreshed. -/
theorem fast_refresh_two_columns :
    fastRefresh ⟨2, 1, Nat.zero_lt_two, Nat.one_pos⟩ 0 2 =
      [FUEvent.leftMove 0, FUEvent.rightMove 1] ∧
    ¬ ∃ n : ℕ, ∀ e ∈ fastRefresh ⟨2, 1, Nat.zero_lt_two, Nat.one_pos⟩ 0 2,
      moveIndex e = some n := by
  have hev : fastRefresh ⟨2, 1, Nat.zero_lt_two, Nat.one_pos⟩ 0 2 =
      [FUEvent.leftMove 0, FUEvent.rightMove 1] := by
    rfl
  refine ⟨hev, ?_⟩
  rintro ⟨n, hn⟩
  have h0 : moveIndex (FUEvent.leftMove 0) = some n := by
    apply hn
    rw [hev]
    exact List.mem_cons_self _ _
  have h1 : moveIndex (FUEvent.rightMove 1) = some n := by
    apply hn
    rw [hev]
    exact List.mem_cons_of_mem _ (List.mem_cons_self _ _)
  simp only [moveIndex, Option.some.injEq] at h0 h1
  omega

/-- C9 amended: after each bond update, the fast path refreshes the
boundary with exactly two partial directional moves — a left move at
the source site's column and a right move at the target site's column
for a horizontal bond, a top move at the source's row and a bottom
move at the target's row for a vertical bond — while with the flag
disabled a full four-direction CTM pass is performed instead. -/
theorem full_update_refresh_events {G : Type} (lat : Lattice) (up : NNOp G) :
    bondStepEvents true lat up =
      FUEvent.fullBond up.source_site up.source_leg ::
        (if legIsHorizontal up.source_leg then
          [FUEvent.leftMove (up.source_site % lat.LX),
           FUEvent.rightMove (lat.neighbor up.source_site up.source_leg % lat.LX)]
        else
          [FUEvent.topMove (up.source_site / lat.LX),
           FUEvent.bottomMove (lat.neighbor up.source_site up.source_leg / lat.LX)]) ∧
    bondStepEvents false lat up =
      [FUEvent.fullBond up.source_site up.source_leg, FUEvent.updateCTM] := by
  constructor
  · simp only [bondStepEvents, if_pos, fastRefresh]
  · rfl

/-! ## Checkpointing (`TeNeS::save_tensors`, lines 1035-1069, and the
load branch of `TeNeS::initialize_tensors`, lines 296-341)

The dense tensor payloads are written with mptensor's binary
`save`/`load` (an external collaborator, exact by contract), but the
lambda spectra go through a text file: `save_tensors` writes each value
with `ofs << lambda_tensor[i][j][k]` on a fresh `std::ofstream`, i.e.
with the stream's DEFAULT precision of 6 significant digits (unlike
`save_onesite`/`save_twosite`/`save_correlation`, which all set
`max_digits10`), and the load branch parses those decimal strings back.
The value round-trip is therefore rounding to 6 significant decimal
digits, modelled here exactly over ℚ by `round6`. -/

/-- Fuel-bounded count of decimal digits (fuel `n` suffices for `n`). -/
def digitsLenAux : ℕ → ℕ → ℕ
  | 0, _ => 0
  | fuel + 1, n => if n < 10 then 1 else digitsLenAux fuel (n / 10) + 1

def digitsLen (n : ℕ) : ℕ := digitsLenAux n n

/-- Decimal exponent of a positive rational: the unique `e` with
`10^e ≤ q < 10^(e+1)`. -/
def decExpPos (q : ℚ) : ℤ :=
  let n := q.num.toNat
  let d := q.den
  let a := digitsLen n
  let b := digitsLen d
  if d * 10 ^ a ≤ n * 10 ^ b then (a : ℤ) - b else (a : ℤ) - b - 1

/-- Rounding to 6 significant decimal digits: the value that survives
printing a double with C++ default stream precision (`%.6g`) and
parsing the decimal string back, modelled exactly over ℚ. -/
def round6 (q : ℚ) : ℚ :=
  if q = 0 then 0
  else
    let e := decExpPos |q|
    let scale : ℚ := 10 ^ (e - 5)
    (round (q / scale) : ℚ) * scale

/-- Offset of leg `j` inside site `i`'s lambda file (the two inner
loops of lines 321-327 and 1062-1066 run legs then entries in order). -/
def legOffset (vdim : ℕ → ℕ → ℕ) (i j : ℕ) : ℕ :=
  ((List.range j).map (vdim i)).sum

def siteLen (vdim : ℕ → ℕ → ℕ) (i : ℕ) : ℕ :=
  ((List.range 4).map (vdim i)).sum

/-- Position of `lambda_tensor[i][j][k]` in the flat vector `ls`
accumulated by the load loop's running counter (lines 331-340). -/
def flatPos (vdim : ℕ → ℕ → ℕ) (i j k : ℕ) : ℕ :=
  ((List.range i).map (siteLen vdim)).sum + legOffset vdim i j + k

/-- The stream of lambda values written by `save_tensors`
(lines 1059-1068), in file order and with each value formatted at the
default 6-significant-digit precision. -/
def save_lambda_tokens (N : ℕ) (vdim : ℕ → ℕ → ℕ) (lam : ℕ → ℕ → ℕ → ℚ) : List ℚ :=
  (List.range N).flatMap fun i =>
    (List.range 4).flatMap fun j =>
      (List.range (vdim i j)).map fun k => round6 (lam i j k)

/-- The lambda state reconstructed by the load loop (lines 331-340)
from the flat broadcast vector `ls`; a missing token leaves the
`temp = 0.0` default of line 323. -/
def load_lambda (ls : List ℚ) (vdim : ℕ → ℕ → ℕ) : ℕ → ℕ → ℕ → ℚ :=
  fun i j k => ls.getD (flatPos vdim i j k) 0

/-- C2 fails on the code (code bug): saving the single lambda value
1/3 and loading it back yields 333333/1000000, not 1/3 — the lambda
text serialization of `save_tensors` uses the default
6-significant-digit precision, so the checkpoint round-trip is not
exact for lambda values. -/
theorem save_load_lambda_not_exact :
    load_lambda (save_lambda_tokens 1 (fun _ _ => 1) (fun _ _ _ => 1/3)) (fun _ _ => 1) 0 0 0
      = 333333 / 1000000 ∧
    load_lambda (save_lambda_tokens 1 (fun _ _ => 1) (fun _ _ _ => 1/3)) (fun _ _ => 1) 0 0 0
      ≠ (1/3 : ℚ) := by
  have h1 : load_lambda (save_lambda_tokens 1 (fun _ _ => 1) (fun _ _ _ => 1/3))
      (fun _ _ => 1) 0 0 0 = round6 (1/3) := rfl
  have hnum : ((1 : ℚ)/3).num = 1 := by norm_num
  have hden : ((1 : ℚ)/3).den = 3 := by norm_num
  have habs : |(1/3 : ℚ)| = 1/3 := by norm_num
  have hexp : decExpPos (1/3) = -1 := by
    simp only [decExpPos, hnum, hden]
    norm_num [digitsLen, digitsLenAux]
  have h6 : round6 (1/3) = 333333/1000000 := by
    rw [round6, if_neg (by norm_num : ¬ (1/3 : ℚ) = 0)]
    simp only [habs, hexp]
    norm_num [round_eq]
  rw [h1, h6]
  norm_num

/-! ## The load branch of `initialize_tensors` (lines 296-341) and C5 -/

/-- The checkpoint directory as seen by the load branch: whether
`stat` succeeds on it, and the parsed contents of each
`lambda_<i>.dat`. -/
structure CheckpointFS where
  dirPresent : Bool
  lambdaFile : ℕ → List ℚ

inductive LoadAction where
  | loadTensor (kind : String) (site : ℕ) : LoadAction
deriving DecidableEq

/-- The tensor files loaded per site by lines 303-315. -/
def tensor_load_actions (N : ℕ) : List LoadAction :=
  (List.range N).flatMap fun i =>
    [LoadAction.loadTensor "T" i, LoadAction.loadTensor "Et" i,
     LoadAction.loadTensor "Er" i, LoadAction.loadTensor "Eb" i,
     LoadAction.loadTensor "El" i, LoadAction.loadTensor "C1" i,
     LoadAction.loadTensor "C2" i, LoadAction.loadTensor "C3" i,
     LoadAction.loadTensor "C4" i]

/-- The rank-0 read of all per-site lambda files into the flat vector
`ls` (lines 318-328); `ifs >> temp` past the end of a file leaves the
`temp = 0.0` default. -/
def read_lambda_flat (fs : CheckpointFS) (N : ℕ) (vdim : ℕ → ℕ → ℕ) : List ℚ :=
  (List.range N).flatMap fun i =>
    (List.range 4).flatMap fun j =>
      (List.range (vdim i j)).map fun k =>
        (fs.lambdaFile i).getD (legOffset vdim i j + k) 0

/-- The per-rank `ls` before the broadcast: only process 0 reads the
lambda files (the `if (mpirank == 0)` of line 317). -/
def rank_lambda_list (fs : CheckpointFS) (N : ℕ) (vdim : ℕ → ℕ → ℕ) (rank : ℕ) : List ℚ :=
  if rank = 0 then read_lambda_flat fs N vdim else []

/-- Modelled per MPI collective semantics: `bcast(ls, 0, comm)`
replaces every rank's vector with the root's. -/
def bcastList (root : ℕ) (data : ℕ → List ℚ) : ℕ → List ℚ := fun _ => data root

/-- The load branch of `initialize_tensors` as executed on one rank:
a missing directory is a fatal error (lines 298-302) raised before any
tensor file is read; otherwise the tensor loads happen and the lambda
state is rebuilt from the broadcast flat vector. -/
def initialize_tensors_load (fs : CheckpointFS) (loadDir : String) (N : ℕ)
    (vdim : ℕ → ℕ → ℕ) (rank : ℕ) :
    Except String (List LoadAction × (ℕ → ℕ → ℕ → ℚ)) :=
  if fs.dirPresent = false then
    Except.error (loadDir ++ " does not exists.")
  else
    Except.ok (tensor_load_actions N,
      load_lambda (bcastList 0 (rank_lambda_list fs N vdim) rank) vdim)

/-- C5: (a) with the configured load directory absent, every rank's
load branch raises the fatal error `"<dir> does not exists."` without
performing any tensor load; (b) with the directory present the result
— in particular the whole lambda state, read by rank 0 only and then
broadcast — is identical on any two ranks; (c) no rank other than 0
reads the lambda files. -/
theorem initialize_tensors_load_spec (tok : ℕ → List ℚ) (loadDir : String)
    (N : ℕ) (vdim : ℕ → ℕ → ℕ) (p q r : ℕ) :
    (initialize_tensors_load ⟨false, tok⟩ loadDir N vdim p =
        Except.error (loadDir ++ " does not exists.")) ∧
    (initialize_tensors_load ⟨true, tok⟩ loadDir N vdim p =
        initialize_tensors_load ⟨true, tok⟩ loadDir N vdim q) ∧
    (rank_lambda_list ⟨true, tok⟩ N vdim (r + 1) = []) := by
  refine ⟨rfl, rfl, ?_⟩
  simp [rank_lambda_list]

/-! ## Operators and contraction scalars

The physical dimension is modelled as a uniform `d`; a one-site
operator is a `d×d` matrix of exact scalars, a two-site gate a 4-leg
tensor whose legs follow mptensor's axis order in `measure_twosite`:
axes `{0,2}` are site 1's (ket, bra) pair and axes `{1,3}` site 2's,
exactly the grouping used by the `svd(op.op, {0,2}, {1,3}, ...)` call
of line 734. -/

abbrev OneOp (d : ℕ) := Fin d → Fin d → ℚ

abbrev TwoOp (d : ℕ) := Fin d → Fin d → Fin d → Fin d → ℚ

/-- `op_identity[i]` (lines 239-245): the identity matrix on the
physical space. -/
def idOp (d : ℕ) : OneOp d := fun a b => if a = b then 1 else 0

/-- The identity on the pair of physical spaces. -/
def idTwoOp (d : ℕ) : TwoOp d := fun k1 k2 b1 b2 => idOp d k1 b1 * idOp d k2 b2

/-- `mptensor::transpose(op.op, {1, 0, 3, 2})` (lines 719 and 726):
swap the two sites of a two-site gate. -/
def swapTwoOp {d : ℕ} (o : TwoOp d) : TwoOp d := fun k1 k2 b1 b2 => o k2 k1 b2 b1

theorem swapTwoOp_idTwoOp (d : ℕ) : swapTwoOp (idTwoOp d) = idTwoOp d := by
  funext k1 k2 b1 b2
  simp only [swapTwoOp, idTwoOp]
  ring

/-! ## One-site observables (`TeNeS::measure_onesite`, lines 541-566,
`TeNeS::save_onesite`, lines 568-602, and the density aggregation of
`TeNeS::measure`, lines 969-998)

`Contract_one_site` (from `PEPS_Basics.hpp`, not among the given
sources) is modelled from the spec as an abstract per-site contraction
`c1 : site → operator → ℚ`: "contract its full environment with the
identity operator to obtain a normalization constant, then with each
requested one-site operator".  The undefined marker
`std::numeric_limits<double>::quiet_NaN()` and its propagation through
`+=` are modelled by `Option ℚ` with `none` as NaN. -/

/-- An entry of the one-site `Operators` list. -/
structure OneSiteOp (d : ℕ) where
  group : ℕ
  source_site : ℕ
  op : OneOp d

/-- `measure_onesite`: `local_obs` starts as all-NaN (lines 547-549)
and each listed operator overwrites its `(group, source_site)` slot
with `val / norm[site]` (lines 557-562). -/
def measure_onesite_obs (d : ℕ) (c1 : ℕ → OneOp d → ℚ) (ops : List (OneSiteOp d)) :
    ℕ → ℕ → Option ℚ :=
  ops.foldl
    (fun obs op => fun g i =>
      if g = op.group ∧ i = op.source_site then
        some (c1 op.source_site op.op / c1 op.source_site (idOp d))
      else obs g i)
    (fun _ _ => none)

/-- The per-group sum formed while writing `onesite_obs.dat`
(lines 588-601): sites whose entry is NaN are skipped by the
`std::isnan` check of line 592. -/
def save_onesite_sum (N : ℕ) (obs : ℕ → ℕ → Option ℚ) (g : ℕ) : ℚ :=
  (List.range N).foldl
    (fun acc i => match obs g i with
      | none => acc
      | some v => acc + v)
    0

/-- NaN-propagating addition: `x += NaN` poisons the accumulator. -/
def nanAdd : Option ℚ → Option ℚ → Option ℚ
  | some a, some b => some (a + b)
  | _, _ => none

/-- The per-group accumulation `loc_obs[ilops] += onesite_obs[ilops][i]`
of lines 971-975 (feeding the densities written to `energy.dat`):
it runs over all sites with NO NaN check, starting from the
value-initialized `tensor_type()`, i.e. 0. -/
def energy_loc_obs (N : ℕ) (obs : ℕ → ℕ → Option ℚ) (g : ℕ) : Option ℚ :=
  (List.range N).foldl (fun acc i => nanAdd acc (obs g i)) (some 0)

theorem measure_onesite_obs_unassigned (d : ℕ) (c1 : ℕ → OneOp d → ℚ)
    (ops : List (OneSiteOp d)) (g i : ℕ)
    (h : ∀ op ∈ ops, ¬(op.group = g ∧ op.source_site = i)) :
    measure_onesite_obs d c1 ops g i = none := by
  suffices hgen : ∀ (init : ℕ → ℕ → Option ℚ),
      (ops.foldl
        (fun obs op => fun g2 i2 =>
          if g2 = op.group ∧ i2 = op.source_site then
            some (c1 op.source_site op.op / c1 op.source_site (idOp d))
          else obs g2 i2)
        init) g i = init g i by
    exact hgen _
  induction ops with
  | nil =>
    intro init
    rfl
  | cons a l ih =>
    intro init
    have ha := h a (List.mem_cons_self _ _)
    have hrest : ∀ op ∈ l, ¬(op.group = g ∧ op.source_site = i) := by
      intro op hop
      exact h op (List.mem_cons_of_mem _ hop)
    rw [List.foldl_cons, ih hrest]
    have : ¬(g = a.group ∧ i = a.source_site) := by
      intro hc
      exact ha ⟨hc.1.symm, hc.2.symm⟩
    rw [if_neg this]

theorem save_onesite_sum_skips (N : ℕ) (obs : ℕ → ℕ → Option ℚ) (g : ℕ) :
    save_onesite_sum N obs g = ((List.range N).filterMap (fun i => obs g i)).sum := by
  suffices hgen : ∀ (l : List ℕ) (a : ℚ),
      l.foldl (fun acc i => match obs g i with
        | none => acc
        | some v => acc + v) a = a + (l.filterMap (fun i => obs g i)).sum by
    simpa using hgen (List.range N) 0
  intro l
  induction l with
  | nil =>
    intro a
    simp
  | cons x xs ih =>
    intro a
    rw [List.foldl_cons]
    cases hx : obs g x with
    | none =>
      simp only [List.filterMap_cons, hx]
      exact ih a
    | some v =>
      simp only [List.filterMap_cons, hx, List.sum_cons]
      rw [ih (a + v)]
      ring

theorem energy_loc_obs_poisoned (N : ℕ) (obs : ℕ → ℕ → Option ℚ) (g i : ℕ)
    (hi : i < N) (hnone : obs g i = none) :
    energy_loc_obs N obs g = none := by
  have habsorb : ∀ (l : List ℕ),
      l.foldl (fun acc j => nanAdd acc (obs g j)) none = none := by
    intro l
    induction l with
    | nil => rfl
    | cons x xs ih =>
      rw [List.foldl_cons]
      have : nanAdd none (obs g x) = none := by
        cases obs g x <;> rfl
      rw [this, ih]
  have hsplit : List.range N = List.range i ++ i :: ((List.range (N - i - 1)).map (i + 1 + ·)) := by
    have h1 : i + 1 + (N - i - 1) = N := by omega
    have h2 : List.range N = List.range (i + 1) ++ (List.range (N - i - 1)).map (i + 1 + ·) := by
      rw [← List.range_add, h1]
    rw [h2, List.range_succ]
    simp
  rw [energy_loc_obs, hsplit, List.foldl_append, List.foldl_cons, hnone]
  have : nanAdd (List.foldl (fun acc j => nanAdd acc (obs g j)) (some 0) (List.range i)) none
      = none := by
    cases List.foldl (fun acc j => nanAdd acc (obs g j)) (some 0) (List.range i) <;> rfl
  rw [this, habsorb]

/-- C3 counterexample: one operator group, two sites, the operator
assigned only at site 0 (with value 1 there).  The claim says every
aggregate sum — including the per-group density fed to `energy.dat` —
excludes the undefined entry; but the `loc_obs` accumulation of
`measure` has no NaN check, so the density is NaN (`none`) instead of
the defined-entries-only sum 1. -/
theorem energy_density_not_nan_free :
    energy_loc_obs 2 (measure_onesite_obs 1 (fun _ _ => 5) [⟨0, 0, idOp 1⟩]) 0 ≠
      some (save_onesite_sum 2 (measure_onesite_obs 1 (fun _ _ => 5) [⟨0, 0, idOp 1⟩]) 0) := by
  have hobs0 : measure_onesite_obs 1 (fun _ _ => 5) [⟨0, 0, idOp 1⟩] 0 0 = some 1 := by
    simp only [measure_onesite_obs, List.foldl_cons, List.foldl_nil]
    norm_num
  have hobs1 : measure_onesite_obs 1 (fun _ _ => 5) [⟨0, 0, idOp 1⟩] 0 1 = none := by
    simp only [measure_onesite_obs, List.foldl_cons, List.foldl_nil]
    norm_num
  have hagg : energy_loc_obs 2 (measure_onesite_obs 1 (fun _ _ => 5) [⟨0, 0, idOp 1⟩]) 0
      = none := by
    have : List.range 2 = [0, 1] := rfl
    rw [energy_loc_obs, this, List.foldl_cons, List.foldl_cons, List.foldl_nil, hobs0, hobs1]
    rfl
  rw [hagg]
  intro hc
  exact Option.noConfusion hc

/-- C3 amended: a (group, site) pair with no assigned operator is
reported as NaN by `measure_onesite`, and the per-group sum written to
`onesite_obs.dat` skips such undefined entries (it equals the sum of
the defined entries only); the per-group observable density written to
`energy.dat`, however, accumulates over ALL sites with no NaN check,
so it is NaN whenever any site of the group is undefined. -/
theorem onesite_nan_reporting (d : ℕ) (c1 : ℕ → OneOp d → ℚ)
    (ops : List (OneSiteOp d)) (g i N : ℕ) (obs : ℕ → ℕ → Option ℚ)
    (hna : ∀ op ∈ ops, ¬(op.group = g ∧ op.source_site = i)) (hi : i < N)
    (hnone : obs g i = none) :
    measure_onesite_obs d c1 ops g i = none ∧
    save_onesite_sum N obs g = ((List.range N).filterMap (fun j => obs g j)).sum ∧
    energy_loc_obs N obs g = none :=
  ⟨measure_onesite_obs_unassigned d c1 ops g i hna,
   save_onesite_sum_skips N obs g,
   energy_loc_obs_poisoned N obs g i hi hnone⟩

/-- Witness for the amended C3 at a concrete instantiation. -/
theorem onesite_nan_reporting_wit :
    measure_onesite_obs 1 (fun _ _ => 1) [] 0 0 = none ∧
    save_onesite_sum 1 (fun _ _ => none) 0 =
      ((List.range 1).filterMap (fun j => (fun _ _ => (none : Option ℚ)) 0 j)).sum ∧
    energy_loc_obs 1 (fun _ _ => none) 0 = none :=
  onesite_nan_reporting 1 (fun _ _ => 1) [] 0 0 1 (fun _ _ => none)
    (fun op hop => absurd hop (List.not_mem_nil op)) Nat.one_pos rfl

/-! ## Long-range correlations (`TeNeS::measure_correlation`,
lines 793-911)

The boundary "half-row/column" machinery (`StartCorrelation`,
`Transfer`, `FinishCorrelation`, from `Square_lattice_CTM.hpp`, which
is not among the given sources) is modelled from the spec: build a
boundary tensor seeded with the left operator and a parallel one
seeded with identity, repeatedly absorb one further column/row
(a transfer step), and at each radius close the boundary against the
right operator (against identity for the normalization).  These are
kept as abstract state transformers over an abstract boundary-state
type `S`, separately for the horizontal sweep and the vertical sweep
(which feeds the transposed site tensor, lines 867 and 881). -/

structure CorrEnv (d : ℕ) (S : Type) where
  startH : ℕ → OneOp d → S
  transferH : ℕ → S → S
  finishH : ℕ → OneOp d → S → ℚ
  startV : ℕ → OneOp d → S
  transferV : ℕ → S → S
  finishV : ℕ → OneOp d → S → ℚ

/-- The record pushed into `correlations` (struct `Correlation` of
`correlation.hpp`; the real scalar model merges `real`/`imag` into one
exact value). -/
structure Correlation where
  left_index : ℕ
  right_index : ℕ
  offset_x : ℕ
  offset_y : ℕ
  left_op : ℕ
  right_op : ℕ
  value : ℚ
deriving DecidableEq

/-- `r_ops[group]` as built from `corparam.operators`
(lines 799-802). -/
def ropsOf (cops : List (ℕ × ℕ)) (g : ℕ) : List ℕ :=
  (cops.filter fun p => p.1 == g).map (fun p => p.2)

/-- The horizontal radius loop (lines 829-859): at radius `r` the
right site is `index((left_x + r + 1) % LX, left_y)` with wraparound
offset `(left_x + r + 1) / LX`; each requested and assigned right
operator yields an entry divided by the identity-normalization closed
at the same radius; then both running states are advanced by one
transfer step at the right site. -/
def horizEntries {d : ℕ} {S : Type} (env : CorrEnv d S) (lat : Lattice)
    (siteop : ℕ → ℕ → Option (OneOp d)) (rops : List ℕ)
    (li lg lx ly : ℕ) : ℕ → ℕ → S → S → List Correlation
  | r, fuel + 1, sT, sN =>
    let rx := (lx + r + 1) % lat.LX
    let ox := (lx + r + 1) / lat.LX
    let ri := lat.index rx ly
    let norm := env.finishH ri (idOp d) sN
    (rops.filterMap fun rg =>
      (siteop ri rg).map fun rop =>
        Correlation.mk li ri ox 0 lg rg (env.finishH ri rop sT / norm)) ++
      horizEntries env lat siteop rops li lg lx ly (r + 1) fuel
        (env.transferH ri sT) (env.transferH ri sN)
  | _, 0, _, _ => []

/-- The vertical radius loop (lines 875-904), with
`index(left_x, (left_y + r + 1) % LY)` and offset
`(left_y + r + 1) / LY`. -/
def vertEntries {d : ℕ} {S : Type} (env : CorrEnv d S) (lat : Lattice)
    (siteop : ℕ → ℕ → Option (OneOp d)) (rops : List ℕ)
    (li lg lx ly : ℕ) : ℕ → ℕ → S → S → List Correlation
  | r, fuel + 1, sT, sN =>
    let ry := (ly + r + 1) % lat.LY
    let oy := (ly + r + 1) / lat.LY
    let ri := lat.index lx ry
    let norm := env.finishV ri (idOp d) sN
    (rops.filterMap fun rg =>
      (siteop ri rg).map fun rop =>
        Correlation.mk li ri 0 oy lg rg (env.finishV ri rop sT / norm)) ++
      vertEntries env lat siteop rops li lg lx ly (r + 1) fuel
        (env.transferV ri sT) (env.transferV ri sN)
  | _, 0, _, _ => []

/-- `TeNeS::measure_correlation`: loop over left sites and left
operator groups; a group with no requested right operators, or a left
site at which the left operator is not assigned (`continue` at
lines 818 and 863), contributes nothing; otherwise the horizontal and
the vertical sweep run with the operator-seeded and identity-seeded
boundary states. -/
def measure_correlation_list {d : ℕ} {S : Type} (env : CorrEnv d S) (lat : Lattice)
    (siteop : ℕ → ℕ → Option (OneOp d)) (cops : List (ℕ × ℕ))
    (nlops rmax : ℕ) : List Correlation :=
  (List.range lat.N_UNIT).flatMap fun li =>
    (List.range nlops).flatMap fun lg =>
      if (ropsOf cops lg).isEmpty then []
      else
        match siteop li lg with
        | none => []
        | some lop =>
          horizEntries env lat siteop (ropsOf cops lg) li lg (lat.xOf li) (lat.yOf li)
            0 rmax (env.startH li lop) (env.startH li (idOp d)) ++
          vertEntries env lat siteop (ropsOf cops lg) li lg (lat.xOf li) (lat.yOf li)
            0 rmax (env.startV li lop) (env.startV li (idOp d))

/-- The horizontal boundary state after the transfer steps of radii
`r0, r0+1, ..., r0+k-1`. -/
def chainH {d : ℕ} {S : Type} (env : CorrEnv d S) (lat : Lattice) (lx ly : ℕ) :
    ℕ → ℕ → S → S
  | _, 0, s => s
  | r0, k + 1, s =>
    chainH env lat lx ly (r0 + 1) k
      (env.transferH (lat.index ((lx + r0 + 1) % lat.LX) ly) s)

def chainV {d : ℕ} {S : Type} (env : CorrEnv d S) (lat : Lattice) (lx ly : ℕ) :
    ℕ → ℕ → S → S
  | _, 0, s => s
  | r0, k + 1, s =>
    chainV env lat lx ly (r0 + 1) k
      (env.transferV (lat.index lx ((ly + r0 + 1) % lat.LY)) s)

theorem horizEntries_mem {d : ℕ} {S : Type} (env : CorrEnv d S) (lat : Lattice)
    (siteop : ℕ → ℕ → Option (OneOp d)) (rops : List ℕ) (li lg lx ly : ℕ)
    (rg : ℕ) (rop : OneOp d) (hrg : rg ∈ rops) :
    ∀ (k fuel r0 : ℕ), k < fuel → ∀ (sT sN : S),
      siteop (lat.index ((lx + (r0 + k) + 1) % lat.LX) ly) rg = some rop →
      (Correlation.mk li (lat.index ((lx + (r0 + k) + 1) % lat.LX) ly)
          ((lx + (r0 + k) + 1) / lat.LX) 0 lg rg
          (env.finishH (lat.index ((lx + (r0 + k) + 1) % lat.LX) ly) rop
              (chainH env lat lx ly r0 k sT) /
            env.finishH (lat.index ((lx + (r0 + k) + 1) % lat.LX) ly) (idOp d)
              (chainH env lat lx ly r0 k sN)))
        ∈ horizEntries env lat siteop rops li lg lx ly r0 fuel sT sN := by
  intro k
  induction k with
  | zero =>
    intro fuel r0 hk sT sN hsome
    cases fuel with
    | zero => omega
    | succ f =>
      simp only [Nat.add_zero] at hsome ⊢
      simp only [horizEntries]
      apply List.mem_append_left
      refine List.mem_filterMap.mpr ⟨rg, hrg, ?_⟩
      rw [hsome]
      rfl
  | succ k ih =>
    intro fuel r0 hk sT sN hsome
    cases fuel with
    | zero => omega
    | succ f =>
      simp only [horizEntries]
      apply List.mem_append_right
      have harg : r0 + (k + 1) = r0 + 1 + k := by omega
      rw [harg] at hsome ⊢
      exact ih f (r0 + 1) (by omega)
        (env.transferH (lat.index ((lx + r0 + 1) % lat.LX) ly) sT)
        (env.transferH (lat.index ((lx + r0 + 1) % lat.LX) ly) sN) hsome

theorem vertEntries_mem {d : ℕ} {S : Type} (env : CorrEnv d S) (lat : Lattice)
    (siteop : ℕ → ℕ → Option (OneOp d)) (rops : List ℕ) (li lg lx ly : ℕ)
    (rg : ℕ) (rop : OneOp d) (hrg : rg ∈ rops) :
    ∀ (k fuel r0 : ℕ), k < fuel → ∀ (sT sN : S),
      siteop (lat.index lx ((ly + (r0 + k) + 1) % lat.LY)) rg = some rop →
      (Correlation.mk li (lat.index lx ((ly + (r0 + k) + 1) % lat.LY))
          0 ((ly + (r0 + k) + 1) / lat.LY) lg rg
          (env.finishV (lat.index lx ((ly + (r0 + k) + 1) % lat.LY)) rop
              (chainV env lat lx ly r0 k sT) /
            env.finishV (lat.index lx ((ly + (r0 + k) + 1) % lat.LY)) (idOp d)
              (chainV env lat lx ly r0 k sN)))
        ∈ vertEntries env lat siteop rops li lg lx ly r0 fuel sT sN := by
  intro k
  induction k with
  | zero =>
    intro fuel r0 hk sT sN hsome
    cases fuel with
    | zero => omega
    | succ f =>
      simp only [Nat.add_zero] at hsome ⊢
      simp only [vertEntries]
      apply List.mem_append_left
      refine List.mem_filterMap.mpr ⟨rg, hrg, ?_⟩
      rw [hsome]
      rfl
  | succ k ih =>
    intro fuel r0 hk sT sN hsome
    cases fuel with
    | zero => omega
    | succ f =>
      simp only [vertEntries]
      apply List.mem_append_right
      have harg : r0 + (k + 1) = r0 + 1 + k := by omega
      rw [harg] at hsome ⊢
      exact ih f (r0 + 1) (by omega)
        (env.transferV (lat.index lx ((ly + r0 + 1) % lat.LY)) sT)
        (env.transferV (lat.index lx ((ly + r0 + 1) % lat.LY)) sN) hsome

/-- C8: for every left site, every requested left operator group and
every radius `r < r_max`, `measure_correlation` reports the horizontal
correlation at right site `index((left_x + r + 1) % LX, left_y)` with
wraparound offset `((left_x + r + 1) / LX, 0)`, and the vertical one
at `index(left_x, (left_y + r + 1) % LY)` with offset
`(0, (left_y + r + 1) / LY)`, each value divided by the
identity-seeded normalization closed at the same radius. -/
theorem measure_correlation_entries {d : ℕ} {S : Type} (env : CorrEnv d S)
    (lat : Lattice) (siteop : ℕ → ℕ → Option (OneOp d)) (cops : List (ℕ × ℕ))
    (nlops rmax li lg r rg : ℕ) (lop ropH ropV : OneOp d)
    (hli : li < lat.N_UNIT) (hlg : lg < nlops)
    (hne : (ropsOf cops lg).isEmpty = false)
    (hlop : siteop li lg = some lop) (hrg : rg ∈ ropsOf cops lg) (hr : r < rmax)
    (hropH : siteop (lat.index ((lat.xOf li + r + 1) % lat.LX) (lat.yOf li)) rg
      = some ropH)
    (hropV : siteop (lat.index (lat.xOf li) ((lat.yOf li + r + 1) % lat.LY)) rg
      = some ropV) :
    (Correlation.mk li (lat.index ((lat.xOf li + r + 1) % lat.LX) (lat.yOf li))
        ((lat.xOf li + r + 1) / lat.LX) 0 lg rg
        (env.finishH (lat.index ((lat.xOf li + r + 1) % lat.LX) (lat.yOf li)) ropH
            (chainH env lat (lat.xOf li) (lat.yOf li) 0 r (env.startH li lop)) /
          env.finishH (lat.index ((lat.xOf li + r + 1) % lat.LX) (lat.yOf li)) (idOp d)
            (chainH env lat (lat.xOf li) (lat.yOf li) 0 r (env.startH li (idOp d)))))
      ∈ measure_correlation_list env lat siteop cops nlops rmax ∧
    (Correlation.mk li (lat.index (lat.xOf li) ((lat.yOf li + r + 1) % lat.LY))
        0 ((lat.yOf li + r + 1) / lat.LY) lg rg
        (env.finishV (lat.index (lat.xOf li) ((lat.yOf li + r + 1) % lat.LY)) ropV
            (chainV env lat (lat.xOf li) (lat.yOf li) 0 r (env.startV li lop)) /
          env.finishV (lat.index (lat.xOf li) ((lat.yOf li + r + 1) % lat.LY)) (idOp d)
            (chainV env lat (lat.xOf li) (lat.yOf li) 0 r (env.startV li (idOp d)))))
      ∈ measure_correlation_list env lat siteop cops nlops rmax := by
  have hlift : ∀ c : Correlation,
      c ∈ (horizEntries env lat siteop (ropsOf cops lg) li lg (lat.xOf li) (lat.yOf li)
            0 rmax (env.startH li lop) (env.startH li (idOp d)) ++
          vertEntries env lat siteop (ropsOf cops lg) li lg (lat.xOf li) (lat.yOf li)
            0 rmax (env.startV li lop) (env.startV li (idOp d))) →
      c ∈ measure_correlation_list env lat siteop cops nlops rmax := by
    intro c hc
    unfold measure_correlation_list
    rw [List.mem_flatMap]
    refine ⟨li, List.mem_range.mpr hli, ?_⟩
    rw [List.mem_flatMap]
    refine ⟨lg, List.mem_range.mpr hlg, ?_⟩
    rw [hne, hlop]
    simpa using hc
  have hzr : ∀ m : ℕ, 0 + m = m := fun m => Nat.zero_add m
  constructor
  · apply hlift
    apply List.mem_append_left
    have h0 := horizEntries_mem env lat siteop (ropsOf cops lg) li lg
      (lat.xOf li) (lat.yOf li) rg ropH hrg r rmax 0 hr
      (env.startH li lop) (env.startH li (idOp d)) (by rw [hzr r]; exact hropH)
    rw [hzr r] at h0
    exact h0
  · apply hlift
    apply List.mem_append_right
    have h0 := vertEntries_mem env lat siteop (ropsOf cops lg) li lg
      (lat.xOf li) (lat.yOf li) rg ropV hrg r rmax 0 hr
      (env.startV li lop) (env.startV li (idOp d)) (by rw [hzr r]; exact hropV)
    rw [hzr r] at h0
    exact h0

/-- Witness for C8 at a concrete instantiation (1×1 cell, trivial
boundary state, identity operators, one radius). -/
theorem measure_correlation_entries_wit :
    let lat : Lattice := ⟨1, 1, Nat.one_pos, Nat.one_pos⟩
    let env : CorrEnv 1 Unit :=
      ⟨fun _ _ => (), fun _ s => s, fun _ _ _ => 1,
       fun _ _ => (), fun _ s => s, fun _ _ _ => 1⟩
    let siteop : ℕ → ℕ → Option (OneOp 1) := fun _ _ => some (idOp 1)
    (0 < lat.N_UNIT ∧ (0 : ℕ) < 1) ∧
    (Correlation.mk 0 (lat.index ((lat.xOf 0 + 0 + 1) % lat.LX) (lat.yOf 0))
        ((lat.xOf 0 + 0 + 1) / lat.LX) 0 0 0
        (env.finishH (lat.index ((lat.xOf 0 + 0 + 1) % lat.LX) (lat.yOf 0)) (idOp 1)
            (chainH env lat (lat.xOf 0) (lat.yOf 0) 0 0 (env.startH 0 (idOp 1))) /
          env.finishH (lat.index ((lat.xOf 0 + 0 + 1) % lat.LX) (lat.yOf 0)) (idOp 1)
            (chainH env lat (lat.xOf 0) (lat.yOf 0) 0 0 (env.startH 0 (idOp 1)))))
      ∈ measure_correlation_list env lat siteop [(0, 0)] 1 1 ∧
    (Correlation.mk 0 (lat.index (lat.xOf 0) ((lat.yOf 0 + 0 + 1) % lat.LY))
        0 ((lat.yOf 0 + 0 + 1) / lat.LY) 0 0
        (env.finishV (lat.index (lat.xOf 0) ((lat.yOf 0 + 0 + 1) % lat.LY)) (idOp 1)
            (chainV env lat (lat.xOf 0) (lat.yOf 0) 0 0 (env.startV 0 (idOp 1))) /
          env.finishV (lat.index (lat.xOf 0) ((lat.yOf 0 + 0 + 1) % lat.LY)) (idOp 1)
            (chainV env lat (lat.xOf 0) (lat.yOf 0) 0 0 (env.startV 0 (idOp 1)))))
      ∈ measure_correlation_list env lat siteop [(0, 0)] 1 1 := by
  intro lat env siteop
  have h := measure_correlation_entries env lat siteop [(0, 0)] 1 1 0 0 0 0
    (idOp 1) (idOp 1) (idOp 1) (by decide) (by decide) rfl rfl (by decide)
    (by decide) rfl rfl
  exact ⟨⟨by decide, by decide⟩, h.1, h.2⟩

/-! ## Two-site observables (`TeNeS::measure_twosite`, lines 604-757)

`Contract(C_, eTt_, eTr_, eTb_, eTl_, Tn_, op_)` (from
`PEPS_Basics.hpp`, not among the given sources) contracts an
`nrow×ncol` block of bulk tensors with its boundary, with a one-site
operator placed on every cell.  Modelled from the spec: such a
contraction is multilinear in the placed operators, so it equals
`∑_{ket,bra} W(ket,bra) · ∏_p op_[p](ket p, bra p)` where `W` is the
contraction of all boundary and bulk (ket and bra) tensors.  The
boundary/bulk tensors entering a block are determined by its top-left
site index together with `nrow` and `ncol` — exactly the key
`(indices[0][0], nrow, ncol)` the code uses for its `norms` cache at
line 706 — so `W` is indexed by that key. -/
structure BlockEnv (d : ℕ) where
  W : (nrow ncol : ℕ) → ℕ → ((Fin nrow × Fin ncol) → Fin d) →
    ((Fin nrow × Fin ncol) → Fin d) → ℚ

/-- The generic block contraction `Contract` with one-site operators
`ops` placed on the cells (row-major grid positions as in the
`Contract_*` comment of lines 648-664). -/
def contractBlock {d : ℕ} (env : BlockEnv d) (nrow ncol tl : ℕ)
    (ops : Fin nrow × Fin ncol → OneOp d) : ℚ :=
  ∑ ket : Fin nrow × Fin ncol → Fin d, ∑ bra : Fin nrow × Fin ncol → Fin d,
    env.W nrow ncol tl ket bra * ∏ p : Fin nrow × Fin ncol, ops p (ket p) (bra p)

/-- The identity-operator normalization of a block, keyed exactly like
the `norms` cache: `key = (indices[0][0], nrow, ncol)`. -/
def normOf {d : ℕ} (env : BlockEnv d) (key : ℕ × ℕ × ℕ) : ℚ :=
  contractBlock env key.2.1 key.2.2 key.1 (fun _ => idOp d)

/-- Modelled from the spec: `Contract_two_sites_vertical_op12`
(lines 720-722) — the same 2×1 network with the two-site gate across
the pair, site 1 of the gate being the top site. -/
def contractTwoVert {d : ℕ} (env : BlockEnv d) (tl : ℕ) (o : TwoOp d) : ℚ :=
  ∑ ket : Fin 2 × Fin 1 → Fin d, ∑ bra : Fin 2 × Fin 1 → Fin d,
    env.W 2 1 tl ket bra * o (ket (0, 0)) (ket (1, 0)) (bra (0, 0)) (bra (1, 0))

/-- Modelled from the spec: `Contract_two_sites_horizontal_op12`
(lines 727-729) — the 1×2 network with site 1 of the gate the left
site. -/
def contractTwoHoriz {d : ℕ} (env : BlockEnv d) (tl : ℕ) (o : TwoOp d) : ℚ :=
  ∑ ket : Fin 1 × Fin 2 → Fin d, ∑ bra : Fin 1 × Fin 2 → Fin d,
    env.W 1 2 tl ket bra * o (ket (0, 0)) (ket (0, 1)) (bra (0, 0)) (bra (0, 1))

/-- The operator grid of the SVD branch and of the `ops_indices`
branch: identity everywhere except the source and target cells
(lines 737-740 and 746-748 overwrite `op_[source_row][source_col]` and
`op_[target_row][target_col]`). -/
def updTwo (d : ℕ) (nrow ncol : ℕ) (sp tp : Fin nrow × Fin ncol) (u v : OneOp d) :
    Fin nrow × Fin ncol → OneOp d :=
  Function.update (Function.update (fun _ => idOp d) sp u) tp v

/-- Modelled from the spec: the contract of the external
`mptensor::svd(op.op, {0,2}, {1,3}, U, s, VT)` factorization
(line 734): the weighted rank-1 operator pairs it returns recompose
the two-site gate. -/
def SVDSpec (d : ℕ) (svd2 : TwoOp d → List (ℚ × OneOp d × OneOp d)) : Prop :=
  ∀ (o : TwoOp d) (k1 k2 b1 b2 : Fin d),
    ((svd2 o).map fun t => t.1 * t.2.1 k1 b1 * t.2.2 k2 b2).sum = o k1 k2 b1 b2

/-- The SVD branch of lines 732-744: sum over the factorization terms
of `Contract` with the term's pair placed at the source/target cells,
weighted by the singular value (`value += localvalue * s[is]`). -/
def svdValue {d : ℕ} (env : BlockEnv d) (svd2 : TwoOp d → List (ℚ × OneOp d × OneOp d))
    (nrow ncol tl : ℕ) (sp tp : Fin nrow × Fin ncol) (o : TwoOp d) : ℚ :=
  (svd2 o).foldl
    (fun acc t =>
      acc + contractBlock env nrow ncol tl (updTwo d nrow ncol sp tp t.2.1 t.2.2) * t.1)
    0

/-- A two-site operator request (`Operators` entry as consumed by
`measure_twosite`: group, source site, offsets `dx[0]`, `dy[0]`, dense
gate, optional pair of one-site operator group references). -/
structure TwoSiteOp (d : ℕ) where
  group : ℕ
  source_site : ℕ
  dx : ℤ
  dy : ℤ
  op : TwoOp d
  ops_indices : List ℕ

/-- The key of `ret`: `{op.source_site, op.dx[0], op.dy[0]}`
(struct `Bond` of lines 39-48). -/
structure Bond where
  source_site : ℕ
  dx : ℤ
  dy : ℤ
deriving DecidableEq

/-- The evolving state of the `measure_twosite` loop: the recorded
entries (in assignment order), the emitted warnings, and the norm
cache `norms`. -/
structure TwoSiteResult where
  entries : List (ℕ × Bond × ℚ)
  warnings : List (ℕ × ℤ × ℤ)
  norms : List ((ℕ × ℕ × ℕ) × ℚ)

/-- Lookup in the `norms` cache. -/
def lookupNorm : List ((ℕ × ℕ × ℕ) × ℚ) → (ℕ × ℕ × ℕ) → Option ℚ
  | [], _ => none
  | (k, v) :: rest, key => if k = key then some v else lookupNorm rest key

/-- The cache key `(indices[0][0], nrow, ncol)` of line 706:
`indices[0][0] = lattice.other(source, 0 - source_col, source_row - 0)`
with `source_col/source_row` picked by the signs of `dx`/`dy`
(lines 672-689). -/
def twoKey (lat : Lattice) (source : ℕ) (dx dy : ℤ) : ℕ × ℕ × ℕ :=
  let scolN : ℤ := if 0 ≤ dx then 0 else dx.natAbs
  let srowN : ℤ := if 0 ≤ dy then dy.natAbs else 0
  (lat.other source (0 - scolN) (srowN - 0), dy.natAbs + 1, dx.natAbs + 1)

/-- `(source_row, source_col)` as a grid cell (lines 672-685). -/
def srcPos (dx dy : ℤ) : Fin (dy.natAbs + 1) × Fin (dx.natAbs + 1) :=
  (if 0 ≤ dy then ⟨dy.natAbs, Nat.lt_succ_self _⟩ else ⟨0, Nat.succ_pos _⟩,
   if 0 ≤ dx then ⟨0, Nat.succ_pos _⟩ else ⟨dx.natAbs, Nat.lt_succ_self _⟩)

/-- `(target_row, target_col)` as a grid cell (lines 672-685). -/
def tgtPos (dx dy : ℤ) : Fin (dy.natAbs + 1) × Fin (dx.natAbs + 1) :=
  (if 0 ≤ dy then ⟨0, Nat.succ_pos _⟩ else ⟨dy.natAbs, Nat.lt_succ_self _⟩,
   if 0 ≤ dx then ⟨dx.natAbs, Nat.lt_succ_self _⟩ else ⟨0, Nat.succ_pos _⟩)

/-- One iteration of the `measure_twosite` loop (lines 616-753):
reject blocks larger than `nmax = 4` with a warning and `continue`;
otherwise fetch or compute-and-cache the identity normalization of the
block, evaluate the operator by the adjacent-pair contraction, the SVD
decomposition, or the referenced one-site pair, and record
`value / norm` under `(group, {source, dx, dy})`. -/
def twositeStep {d : ℕ} (env : BlockEnv d)
    (svd2 : TwoOp d → List (ℚ × OneOp d × OneOp d)) (lat : Lattice)
    (sop : ℕ → ℕ → OneOp d) (st : TwoSiteResult) (o : TwoSiteOp d) : TwoSiteResult :=
  let ncol := o.dx.natAbs + 1
  let nrow := o.dy.natAbs + 1
  if 4 < ncol ∨ 4 < nrow then
    { st with warnings := st.warnings ++ [(o.group, o.dx, o.dy)] }
  else
    let key := twoKey lat o.source_site o.dx o.dy
    let norm := match lookupNorm st.norms key with
      | some v => v
      | none => normOf env key
    let norms2 := match lookupNorm st.norms key with
      | some _ => st.norms
      | none => st.norms ++ [(key, normOf env key)]
    let value :=
      if o.ops_indices = [] then
        if nrow * ncol = 2 then
          if nrow = 2 then
            contractTwoVert env key.1
              (if key.1 = o.source_site then o.op else swapTwoOp o.op)
          else
            contractTwoHoriz env key.1
              (if key.1 = o.source_site then o.op else swapTwoOp o.op)
        else
          svdValue env svd2 nrow ncol key.1 (srcPos o.dx o.dy) (tgtPos o.dx o.dy) o.op
      else
        contractBlock env nrow ncol key.1
          (updTwo d nrow ncol (srcPos o.dx o.dy) (tgtPos o.dx o.dy)
            (sop o.source_site (o.ops_indices.getD 0 0))
            (sop (lat.other o.source_site o.dx o.dy) (o.ops_indices.getD 1 0)))
    { entries := st.entries ++ [(o.group, ⟨o.source_site, o.dx, o.dy⟩, value / norm)]
      warnings := st.warnings
      norms := norms2 }

/-- `TeNeS::measure_twosite`: fold the step over the operator list. -/
def measure_twosite_run {d : ℕ} (env : BlockEnv d)
    (svd2 : TwoOp d → List (ℚ × OneOp d × OneOp d)) (lat : Lattice)
    (sop : ℕ → ℕ → OneOp d) (ops : List (TwoSiteOp d)) : TwoSiteResult :=
  ops.foldl (twositeStep env svd2 lat sop) ⟨[], [], []⟩

theorem twositeStep_congr {d : ℕ} (env : BlockEnv d)
    (svd2 : TwoOp d → List (ℚ × OneOp d × OneOp d)) (lat : Lattice)
    (sop : ℕ → ℕ → OneOp d) (S S' : TwoSiteResult) (o : TwoSiteOp d)
    (he : S.entries = S'.entries) (hn : S.norms = S'.norms) :
    (twositeStep env svd2 lat sop S o).entries =
      (twositeStep env svd2 lat sop S' o).entries ∧
    (twositeStep env svd2 lat sop S o).norms =
      (twositeStep env svd2 lat sop S' o).norms := by
  by_cases h : 4 < o.dx.natAbs + 1 ∨ 4 < o.dy.natAbs + 1
  · simp only [twositeStep, if_pos h]
    exact ⟨he, hn⟩
  · constructor
    · simp only [twositeStep, if_neg h, he, hn]
    · simp only [twositeStep, if_neg h, he, hn]

theorem measure_twosite_fold_congr {d : ℕ} (env : BlockEnv d)
    (svd2 : TwoOp d → List (ℚ × OneOp d × OneOp d)) (lat : Lattice)
    (sop : ℕ → ℕ → OneOp d) :
    ∀ (l : List (TwoSiteOp d)) (S S' : TwoSiteResult),
      S.entries = S'.entries → S.norms = S'.norms →
      (l.foldl (twositeStep env svd2 lat sop) S).entries =
        (l.foldl (twositeStep env svd2 lat sop) S').entries ∧
      (l.foldl (twositeStep env svd2 lat sop) S).norms =
        (l.foldl (twositeStep env svd2 lat sop) S').norms := by
  intro l
  induction l with
  | nil =>
    intro S S' he hn
    exact ⟨he, hn⟩
  | cons a t ih =>
    intro S S' he hn
    rw [List.foldl_cons, List.foldl_cons]
    have h2 := twositeStep_congr env svd2 lat sop S S' a he hn
    exact ih _ _ h2.1 h2.2

theorem twositeStep_warnings_mono {d : ℕ} (env : BlockEnv d)
    (svd2 : TwoOp d → List (ℚ × OneOp d × OneOp d)) (lat : Lattice)
    (sop : ℕ → ℕ → OneOp d) (S : TwoSiteResult) (o : TwoSiteOp d)
    (x : ℕ × ℤ × ℤ) (hx : x ∈ S.warnings) :
    x ∈ (twositeStep env svd2 lat sop S o).warnings := by
  by_cases h : 4 < o.dx.natAbs + 1 ∨ 4 < o.dy.natAbs + 1
  · simp only [twositeStep, if_pos h]
    exact List.mem_append_left _ hx
  · simp only [twositeStep, if_neg h]
    exact hx

theorem measure_twosite_fold_warnings_mono {d : ℕ} (env : BlockEnv d)
    (svd2 : TwoOp d → List (ℚ × OneOp d × OneOp d)) (lat : Lattice)
    (sop : ℕ → ℕ → OneOp d) :
    ∀ (l : List (TwoSiteOp d)) (S : TwoSiteResult) (x : ℕ × ℤ × ℤ),
      x ∈ S.warnings → x ∈ (l.foldl (twositeStep env svd2 lat sop) S).warnings := by
  intro l
  induction l with
  | nil =>
    intro S x hx
    exact hx
  | cons a t ih =>
    intro S x hx
    rw [List.foldl_cons]
    exact ih _ _ (twositeStep_warnings_mono env svd2 lat sop S a x hx)

/-- C4: a two-site request whose bounding block exceeds the maximum
supported size (`|dx|+1 > 4` columns or `|dy|+1 > 4` rows) is skipped:
its warning is emitted, it contributes no entry (the result's entries
are exactly those of the same run without the request, and a run of
just the oversized request records nothing), and the remaining
requests are processed unchanged. -/
theorem measure_twosite_skips_oversized {d : ℕ} (env : BlockEnv d)
    (svd2 : TwoOp d → List (ℚ × OneOp d × OneOp d)) (lat : Lattice)
    (sop : ℕ → ℕ → OneOp d) (xs ys : List (TwoSiteOp d)) (o : TwoSiteOp d)
    (h : 4 < o.dx.natAbs + 1 ∨ 4 < o.dy.natAbs + 1) :
    (measure_twosite_run env svd2 lat sop (xs ++ o :: ys)).entries =
      (measure_twosite_run env svd2 lat sop (xs ++ ys)).entries ∧
    (o.group, o.dx, o.dy) ∈ (measure_twosite_run env svd2 lat sop (xs ++ o :: ys)).warnings ∧
    (measure_twosite_run env svd2 lat sop [o]).entries = [] := by
  have hstep : ∀ S : TwoSiteResult, twositeStep env svd2 lat sop S o =
      { S with warnings := S.warnings ++ [(o.group, o.dx, o.dy)] } := by
    intro S
    simp only [twositeStep, if_pos h]
  refine ⟨?_, ?_, ?_⟩
  · rw [measure_twosite_run, measure_twosite_run, List.foldl_append, List.foldl_append,
      List.foldl_cons, hstep]
    refine (measure_twosite_fold_congr env svd2 lat sop ys _ _ ?_ ?_).1 <;> rfl
  · rw [measure_twosite_run, List.foldl_append, List.foldl_cons, hstep]
    apply measure_twosite_fold_warnings_mono
    simp
  · rw [measure_twosite_run, List.foldl_cons, List.foldl_nil, hstep]

/-- Witness for C4 at a concrete instantiation: a request with
`dx = 4` spans 5 columns and is skipped. -/
theorem measure_twosite_skips_oversized_wit :
    (4 < ((4 : ℤ)).natAbs + 1 ∨ 4 < ((0 : ℤ)).natAbs + 1) ∧
    ((measure_twosite_run ⟨fun _ _ _ _ _ => 0⟩ (fun _ => []) ⟨1, 1, Nat.one_pos, Nat.one_pos⟩
        (fun _ _ => idOp 1) ([] ++ (⟨0, 0, 4, 0, idTwoOp 1, []⟩ : TwoSiteOp 1) :: [])).entries =
      (measure_twosite_run ⟨fun _ _ _ _ _ => 0⟩ (fun _ => []) ⟨1, 1, Nat.one_pos, Nat.one_pos⟩
        (fun _ _ => idOp 1) ([] ++ [])).entries ∧
    ((0 : ℕ), (4 : ℤ), (0 : ℤ)) ∈ (measure_twosite_run ⟨fun _ _ _ _ _ => 0⟩ (fun _ => [])
        ⟨1, 1, Nat.one_pos, Nat.one_pos⟩ (fun _ _ => idOp 1)
        ([] ++ (⟨0, 0, 4, 0, idTwoOp 1, []⟩ : TwoSiteOp 1) :: [])).warnings ∧
    (measure_twosite_run ⟨fun _ _ _ _ _ => 0⟩ (fun _ => []) ⟨1, 1, Nat.one_pos, Nat.one_pos⟩
        (fun _ _ => idOp 1) [(⟨0, 0, 4, 0, idTwoOp 1, []⟩ : TwoSiteOp 1)]).entries = []) :=
  ⟨by decide,
   measure_twosite_skips_oversized ⟨fun _ _ _ _ _ => 0⟩ (fun _ => [])
     ⟨1, 1, Nat.one_pos, Nat.one_pos⟩ (fun _ _ => idOp 1) [] []
     ⟨0, 0, 4, 0, idTwoOp 1, []⟩ (by decide)⟩

/-! ## C1: identity two-site operators measure exactly 1 -/

theorem foldl_add_map {α : Type} (f : α → ℚ) :
    ∀ (l : List α) (a : ℚ), l.foldl (fun acc t => acc + f t) a = a + (l.map f).sum := by
  intro l
  induction l with
  | nil =>
    intro a
    simp
  | cons x xs ih =>
    intro a
    rw [List.foldl_cons, ih, List.map_cons, List.sum_cons]
    ring

theorem map_sum_congr {α : Type} (l : List α) (f g : α → ℚ)
    (h : ∀ a ∈ l, f a = g a) : (l.map f).sum = (l.map g).sum := by
  induction l with
  | nil => rfl
  | cons a t ih =>
    simp only [List.map_cons, List.sum_cons]
    rw [h a (List.mem_cons_self _ _), ih (fun b hb => h b (List.mem_cons_of_mem _ hb))]

theorem list_sum_comm {α β : Type} (s : Finset β) (l : List α) (g : α → β → ℚ) :
    (l.map fun t => ∑ x ∈ s, g t x).sum = ∑ x ∈ s, (l.map fun t => g t x).sum := by
  induction l with
  | nil => simp
  | cons a t ih =>
    simp only [List.map_cons, List.sum_cons, ih, Finset.sum_add_distrib]

theorem sum_map_mul_left' {α : Type} (l : List α) (c : ℚ) (f : α → ℚ) :
    (l.map fun t => c * f t).sum = c * (l.map f).sum := by
  induction l with
  | nil => simp
  | cons a t ih =>
    simp only [List.map_cons, List.sum_cons, ih]
    ring

theorem prod_updTwo {d nrow ncol : ℕ} (sp tp : Fin nrow × Fin ncol) (hne : sp ≠ tp)
    (u v : OneOp d) (ket bra : Fin nrow × Fin ncol → Fin d) :
    (∏ p : Fin nrow × Fin ncol, updTwo d nrow ncol sp tp u v p (ket p) (bra p)) =
      u (ket sp) (bra sp) * v (ket tp) (bra tp) *
        ∏ p ∈ (Finset.univ.erase tp).erase sp, idOp d (ket p) (bra p) := by
  have hsp_mem : sp ∈ Finset.univ.erase tp :=
    Finset.mem_erase.mpr ⟨hne, Finset.mem_univ sp⟩
  rw [← Finset.mul_prod_erase Finset.univ _ (Finset.mem_univ tp),
    ← Finset.mul_prod_erase _ _ hsp_mem]
  have htp : updTwo d nrow ncol sp tp u v tp = v := by
    simp [updTwo]
  have hsp : updTwo d nrow ncol sp tp u v sp = u := by
    simp [updTwo, Function.update_noteq hne]
  have hrest : (∏ p ∈ (Finset.univ.erase tp).erase sp,
      updTwo d nrow ncol sp tp u v p (ket p) (bra p)) =
      ∏ p ∈ (Finset.univ.erase tp).erase sp, idOp d (ket p) (bra p) := by
    apply Finset.prod_congr rfl
    intro p hp
    have hp1 : p ≠ sp := (Finset.mem_erase.mp hp).1
    have hp2 : p ≠ tp := (Finset.mem_erase.mp (Finset.mem_erase.mp hp).2).1
    simp [updTwo, Function.update_noteq hp1, Function.update_noteq hp2]
  rw [htp, hsp, hrest]
  ring

theorem prod_idOp_split {d nrow ncol : ℕ} (sp tp : Fin nrow × Fin ncol) (hne : sp ≠ tp)
    (ket bra : Fin nrow × Fin ncol → Fin d) :
    (∏ p : Fin nrow × Fin ncol, idOp d (ket p) (bra p)) =
      idOp d (ket sp) (bra sp) * idOp d (ket tp) (bra tp) *
        ∏ p ∈ (Finset.univ.erase tp).erase sp, idOp d (ket p) (bra p) := by
  have hsp_mem : sp ∈ Finset.univ.erase tp :=
    Finset.mem_erase.mpr ⟨hne, Finset.mem_univ sp⟩
  rw [← Finset.mul_prod_erase Finset.univ _ (Finset.mem_univ tp),
    ← Finset.mul_prod_erase _ _ hsp_mem]
  ring

/-- The block contraction with a two-site gate across the cells
`sp`/`tp` and identity elsewhere (the semantic content shared by the
adjacent-pair contractions and the recomposed SVD branch). -/
def blockWithPair {d : ℕ} (env : BlockEnv d) (nrow ncol tl : ℕ)
    (sp tp : Fin nrow × Fin ncol) (o : TwoOp d) : ℚ :=
  ∑ ket : Fin nrow × Fin ncol → Fin d, ∑ bra : Fin nrow × Fin ncol → Fin d,
    env.W nrow ncol tl ket bra *
      (o (ket sp) (ket tp) (bra sp) (bra tp) *
        ∏ p ∈ (Finset.univ.erase tp).erase sp, idOp d (ket p) (bra p))

theorem blockWithPair_id {d : ℕ} (env : BlockEnv d) (nrow ncol tl : ℕ)
    (sp tp : Fin nrow × Fin ncol) (hne : sp ≠ tp) :
    blockWithPair env nrow ncol tl sp tp (idTwoOp d) = normOf env (tl, nrow, ncol) := by
  unfold blockWithPair normOf contractBlock
  apply Finset.sum_congr rfl
  intro ket _
  apply Finset.sum_congr rfl
  intro bra _
  rw [prod_idOp_split sp tp hne ket bra]
  simp only [idTwoOp]

theorem svdValue_eq_blockWithPair {d : ℕ} (env : BlockEnv d)
    (svd2 : TwoOp d → List (ℚ × OneOp d × OneOp d)) (hsvd : SVDSpec d svd2)
    (nrow ncol tl : ℕ) (sp tp : Fin nrow × Fin ncol) (hne : sp ≠ tp) (o : TwoOp d) :
    svdValue env svd2 nrow ncol tl sp tp o = blockWithPair env nrow ncol tl sp tp o := by
  unfold svdValue
  rw [foldl_add_map, zero_add]
  have hpt : ∀ t ∈ svd2 o,
      contractBlock env nrow ncol tl (updTwo d nrow ncol sp tp t.2.1 t.2.2) * t.1 =
      ∑ ket : Fin nrow × Fin ncol → Fin d, ∑ bra : Fin nrow × Fin ncol → Fin d,
        (env.W nrow ncol tl ket bra *
            ∏ p ∈ (Finset.univ.erase tp).erase sp, idOp d (ket p) (bra p)) *
          (t.1 * t.2.1 (ket sp) (bra sp) * t.2.2 (ket tp) (bra tp)) := by
    intro t _
    unfold contractBlock
    rw [Finset.sum_mul]
    apply Finset.sum_congr rfl
    intro ket _
    rw [Finset.sum_mul]
    apply Finset.sum_congr rfl
    intro bra _
    rw [prod_updTwo sp tp hne _ _ ket bra]
    ring
  rw [map_sum_congr _ _ _ hpt, list_sum_comm]
  unfold blockWithPair
  apply Finset.sum_congr rfl
  intro ket _
  rw [list_sum_comm]
  apply Finset.sum_congr rfl
  intro bra _
  rw [sum_map_mul_left', hsvd o (ket sp) (ket tp) (bra sp) (bra tp)]
  ring

theorem contractTwoVert_eq {d : ℕ} (env : BlockEnv d) (tl : ℕ) (o : TwoOp d) :
    contractTwoVert env tl o =
      blockWithPair env 2 1 tl ((0 : Fin 2), (0 : Fin 1)) ((1 : Fin 2), (0 : Fin 1)) o := by
  unfold contractTwoVert blockWithPair
  apply Finset.sum_congr rfl
  intro ket _
  apply Finset.sum_congr rfl
  intro bra _
  have hempty : ((Finset.univ.erase ((1 : Fin 2), (0 : Fin 1))).erase
      ((0 : Fin 2), (0 : Fin 1))) = (∅ : Finset (Fin 2 × Fin 1)) := by
    decide
  rw [hempty, Finset.prod_empty]
  ring

theorem contractTwoHoriz_eq {d : ℕ} (env : BlockEnv d) (tl : ℕ) (o : TwoOp d) :
    contractTwoHoriz env tl o =
      blockWithPair env 1 2 tl ((0 : Fin 1), (0 : Fin 2)) ((0 : Fin 1), (1 : Fin 2)) o := by
  unfold contractTwoHoriz blockWithPair
  apply Finset.sum_congr rfl
  intro ket _
  apply Finset.sum_congr rfl
  intro bra _
  have hempty : ((Finset.univ.erase ((0 : Fin 1), (1 : Fin 2))).erase
      ((0 : Fin 1), (0 : Fin 2))) = (∅ : Finset (Fin 1 × Fin 2)) := by
    decide
  rw [hempty, Finset.prod_empty]
  ring

theorem contractTwoVert_id {d : ℕ} (env : BlockEnv d) (tl : ℕ) :
    contractTwoVert env tl (idTwoOp d) = normOf env (tl, 2, 1) := by
  rw [contractTwoVert_eq]
  exact blockWithPair_id env 2 1 tl _ _ (by decide)

theorem contractTwoHoriz_id {d : ℕ} (env : BlockEnv d) (tl : ℕ) :
    contractTwoHoriz env tl (idTwoOp d) = normOf env (tl, 1, 2) := by
  rw [contractTwoHoriz_eq]
  exact blockWithPair_id env 1 2 tl _ _ (by decide)

theorem svdValue_id {d : ℕ} (env : BlockEnv d)
    (svd2 : TwoOp d → List (ℚ × OneOp d × OneOp d)) (hsvd : SVDSpec d svd2)
    (nrow ncol tl : ℕ) (sp tp : Fin nrow × Fin ncol) (hne : sp ≠ tp) :
    svdValue env svd2 nrow ncol tl sp tp (idTwoOp d) = normOf env (tl, nrow, ncol) := by
  rw [svdValue_eq_blockWithPair env svd2 hsvd nrow ncol tl sp tp hne]
  exact blockWithPair_id env nrow ncol tl sp tp hne

/-- Invariant of the `norms` cache: every stored value is the identity
normalization of its key. -/
def NormCache {d : ℕ} (env : BlockEnv d) (st : TwoSiteResult) : Prop :=
  ∀ kv ∈ st.norms, kv.2 = normOf env kv.1

theorem lookupNorm_cache {d : ℕ} (env : BlockEnv d) :
    ∀ (l : List ((ℕ × ℕ × ℕ) × ℚ)) (key : ℕ × ℕ × ℕ) (v : ℚ),
      (∀ kv ∈ l, kv.2 = normOf env kv.1) → lookupNorm l key = some v →
      v = normOf env key := by
  intro l
  induction l with
  | nil =>
    intro key v _ hl
    exact Option.noConfusion hl
  | cons kv rest ih =>
    intro key v h hl
    obtain ⟨k, v2⟩ := kv
    simp only [lookupNorm] at hl
    by_cases hk : k = key
    · rw [if_pos hk] at hl
      have h2 := h (k, v2) (List.mem_cons_self _ _)
      simp only at h2
      have hv : v2 = v := Option.some_injective _ hl
      rw [← hv, h2, hk]
    · rw [if_neg hk] at hl
      exact ih key v (fun kv2 hkv2 => h kv2 (List.mem_cons_of_mem _ hkv2)) hl

theorem twositeStep_cache {d : ℕ} (env : BlockEnv d)
    (svd2 : TwoOp d → List (ℚ × OneOp d × OneOp d)) (lat : Lattice)
    (sop : ℕ → ℕ → OneOp d) (S : TwoSiteResult) (o : TwoSiteOp d)
    (hc : NormCache env S) : NormCache env (twositeStep env svd2 lat sop S o) := by
  by_cases h : 4 < o.dx.natAbs + 1 ∨ 4 < o.dy.natAbs + 1
  · simp only [twositeStep, if_pos h]
    exact hc
  · simp only [NormCache, twositeStep, if_neg h]
    intro kv hkv
    cases hl : lookupNorm S.norms (twoKey lat o.source_site o.dx o.dy) with
    | some v =>
      rw [hl] at hkv
      exact hc kv hkv
    | none =>
      rw [hl] at hkv
      rcases List.mem_append.mp hkv with h1 | h2
      · exact hc kv h1
      · rw [List.mem_singleton.mp h2]
  
theorem twositeStep_entries_mem {d : ℕ} (env : BlockEnv d)
    (svd2 : TwoOp d → List (ℚ × OneOp d × OneOp d)) (lat : Lattice)
    (sop : ℕ → ℕ → OneOp d) (S : TwoSiteResult) (o : TwoSiteOp d)
    (x : ℕ × Bond × ℚ) (hx : x ∈ S.entries) :
    x ∈ (twositeStep env svd2 lat sop S o).entries := by
  by_cases h : 4 < o.dx.natAbs + 1 ∨ 4 < o.dy.natAbs + 1
  · simp only [twositeStep, if_pos h]
    exact hx
  · simp only [twositeStep, if_neg h]
    exact List.mem_append_left _ hx

theorem measure_twosite_fold_entries_mem {d : ℕ} (env : BlockEnv d)
    (svd2 : TwoOp d → List (ℚ × OneOp d × OneOp d)) (lat : Lattice)
    (sop : ℕ → ℕ → OneOp d) :
    ∀ (l : List (TwoSiteOp d)) (S : TwoSiteResult) (x : ℕ × Bond × ℚ),
      x ∈ S.entries → x ∈ (l.foldl (twositeStep env svd2 lat sop) S).entries := by
  intro l
  induction l with
  | nil =>
    intro S x hx
    exact hx
  | cons a t ih =>
    intro S x hx
    rw [List.foldl_cons]
    exact ih _ _ (twositeStep_entries_mem env svd2 lat sop S a x hx)

theorem srcPos_ne_tgtPos (dx dy : ℤ) (h : ¬(dx = 0 ∧ dy = 0)) :
    srcPos dx dy ≠ tgtPos dx dy := by
  intro heq
  by_cases hdx : dx = 0
  · have hdy : dy ≠ 0 := fun hc => h ⟨hdx, hc⟩
    have hb : dy.natAbs ≠ 0 := fun hc => hdy (Int.natAbs_eq_zero.mp hc)
    have h1 := congrArg Prod.fst heq
    simp only [srcPos, tgtPos] at h1
    by_cases hge : 0 ≤ dy
    · rw [if_pos hge, if_pos hge] at h1
      have h2 := congrArg Fin.val h1
      simp only at h2
      exact hb h2
    · rw [if_neg hge, if_neg hge] at h1
      have h2 := congrArg Fin.val h1
      simp only at h2
      exact hb h2.symm
  · have ha : dx.natAbs ≠ 0 := fun hc => hdx (Int.natAbs_eq_zero.mp hc)
    have h1 := congrArg Prod.snd heq
    simp only [srcPos, tgtPos] at h1
    by_cases hge : 0 ≤ dx
    · rw [if_pos hge, if_pos hge] at h1
      have h2 := congrArg Fin.val h1
      simp only at h2
      exact ha h2.symm
    · rw [if_neg hge, if_neg hge] at h1
      have h2 := congrArg Fin.val h1
      simp only at h2
      exact ha h2

theorem mul_succ_succ_eq_two {a b : ℕ} (h : (b + 1) * (a + 1) = 2) :
    (b = 1 ∧ a = 0) ∨ (b = 0 ∧ a = 1) := by
  have ha : a + 1 ≤ 2 := Nat.le_of_dvd (by omega) ⟨b + 1, by rw [← h]; try ring⟩
  have hb : b + 1 ≤ 2 := Nat.le_of_dvd (by omega) ⟨a + 1, by rw [← h]; try ring⟩
  have ha2 : a ≤ 1 := by omega
  have hb2 : b ≤ 1 := by omega
  interval_cases a <;> interval_cases b <;> omega

theorem twositeStep_identity {d : ℕ} (env : BlockEnv d)
    (svd2 : TwoOp d → List (ℚ × OneOp d × OneOp d)) (lat : Lattice)
    (sop : ℕ → ℕ → OneOp d) (hsvd : SVDSpec d svd2) (S : TwoSiteResult)
    (hc : NormCache env S) (o : TwoSiteOp d)
    (hidx : o.ops_indices = []) (hop : o.op = idTwoOp d)
    (hbond : ¬(o.dx = 0 ∧ o.dy = 0))
    (hsup : o.dx.natAbs + 1 ≤ 4 ∧ o.dy.natAbs + 1 ≤ 4)
    (hnorm : normOf env (twoKey lat o.source_site o.dx o.dy) ≠ 0) :
    (twositeStep env svd2 lat sop S o).entries =
      S.entries ++ [(o.group, (⟨o.source_site, o.dx, o.dy⟩ : Bond), (1 : ℚ))] := by
  have hns : ¬(4 < o.dx.natAbs + 1 ∨ 4 < o.dy.natAbs + 1) := by omega
  simp only [twositeStep, if_neg hns, hidx, eq_self_iff_true, if_true]
  refine congrArg (fun z =>
    S.entries ++ [(o.group, (⟨o.source_site, o.dx, o.dy⟩ : Bond), z)]) ?_
  have hN : (match lookupNorm S.norms (twoKey lat o.source_site o.dx o.dy) with
      | some v => v
      | none => normOf env (twoKey lat o.source_site o.dx o.dy)) =
      normOf env (twoKey lat o.source_site o.dx o.dy) := by
    cases hl : lookupNorm S.norms (twoKey lat o.source_site o.dx o.dy) with
    | some v => exact lookupNorm_cache env S.norms _ v hc hl
    | none => rfl
  rw [hN]
  by_cases h2 : (o.dy.natAbs + 1) * (o.dx.natAbs + 1) = 2
  · rw [if_pos h2]
    by_cases hv : o.dy.natAbs + 1 = 2
    · rw [if_pos hv]
      have hab : o.dy.natAbs = 1 ∧ o.dx.natAbs = 0 := by
        rcases mul_succ_succ_eq_two h2 with hca | hca
        · exact hca
        · exact absurd hv (by omega)
      have ha : o.dx.natAbs = 0 := hab.2
      have hb : o.dy.natAbs = 1 := hab.1
      rw [hop, swapTwoOp_idTwoOp, ite_self, contractTwoVert_id]
      have hkey2 : (twoKey lat o.source_site o.dx o.dy) =
          ((twoKey lat o.source_site o.dx o.dy).1, 2, 1) := by
        simp only [twoKey, hb, ha]
      rw [← hkey2, div_self hnorm]
    · rw [if_neg hv]
      have hab : o.dy.natAbs = 0 ∧ o.dx.natAbs = 1 := by
        rcases mul_succ_succ_eq_two h2 with hca | hca
        · exact absurd hv (by omega)
        · exact hca
      have hb : o.dy.natAbs = 0 := hab.1
      have ha : o.dx.natAbs = 1 := hab.2
      rw [hop, swapTwoOp_idTwoOp, ite_self, contractTwoHoriz_id]
      have hkey2 : (twoKey lat o.source_site o.dx o.dy) =
          ((twoKey lat o.source_site o.dx o.dy).1, 1, 2) := by
        simp only [twoKey, hb, ha]
      rw [← hkey2, div_self hnorm]
  · rw [if_neg h2]
    have hne := srcPos_ne_tgtPos o.dx o.dy hbond
    rw [hop, svdValue_id env svd2 hsvd _ _ _ _ _ hne]
    have hkey2 : (twoKey lat o.source_site o.dx o.dy) =
        ((twoKey lat o.source_site o.dx o.dy).1, o.dy.natAbs + 1, o.dx.natAbs + 1) := by
      simp only [twoKey]
    rw [← hkey2, div_self hnorm]

theorem measure_twosite_fold_identity {d : ℕ} (env : BlockEnv d)
    (svd2 : TwoOp d → List (ℚ × OneOp d × OneOp d)) (lat : Lattice)
    (sop : ℕ → ℕ → OneOp d) (hsvd : SVDSpec d svd2) (o : TwoSiteOp d)
    (hidx : o.ops_indices = []) (hop : o.op = idTwoOp d)
    (hbond : ¬(o.dx = 0 ∧ o.dy = 0))
    (hsup : o.dx.natAbs + 1 ≤ 4 ∧ o.dy.natAbs + 1 ≤ 4)
    (hnorm : normOf env (twoKey lat o.source_site o.dx o.dy) ≠ 0) :
    ∀ (l : List (TwoSiteOp d)) (S : TwoSiteResult), NormCache env S → o ∈ l →
      (o.group, (⟨o.source_site, o.dx, o.dy⟩ : Bond), (1 : ℚ)) ∈
        (l.foldl (twositeStep env svd2 lat sop) S).entries := by
  intro l
  induction l with
  | nil =>
    intro S _ hm
    exact absurd hm (List.not_mem_nil o)
  | cons a t ih =>
    intro S hc hm
    rw [List.foldl_cons]
    rcases List.mem_cons.mp hm with heq | hmem
    · apply measure_twosite_fold_entries_mem
      rw [← heq, twositeStep_identity env svd2 lat sop hsvd S hc o hidx hop hbond hsup hnorm]
      exact List.mem_append_right _ (List.mem_singleton_self _)
    · exact ih _ (twositeStep_cache env svd2 lat sop S a hc) hmem

/-- C1: a two-site operator request whose dense gate is the identity on
the pair of physical spaces (with no one-site factorization given),
whose offsets describe an actual bond within the supported block size,
and whose block has a nonzero identity normalization, is recorded by
`measure_twosite` with value exactly 1: the operator contraction equals
the identity-operator normalization it is divided by, in each of the
three evaluation branches (vertical pair, horizontal pair, SVD
decomposition). -/
theorem measure_twosite_identity_one {d : ℕ} (env : BlockEnv d)
    (svd2 : TwoOp d → List (ℚ × OneOp d × OneOp d)) (lat : Lattice)
    (sop : ℕ → ℕ → OneOp d) (hsvd : SVDSpec d svd2)
    (ops : List (TwoSiteOp d)) (o : TwoSiteOp d) (ho : o ∈ ops)
    (hidx : o.ops_indices = []) (hop : o.op = idTwoOp d)
    (hbond : ¬(o.dx = 0 ∧ o.dy = 0))
    (hsup : o.dx.natAbs + 1 ≤ 4 ∧ o.dy.natAbs + 1 ≤ 4)
    (hnorm : normOf env (twoKey lat o.source_site o.dx o.dy) ≠ 0) :
    (o.group, (⟨o.source_site, o.dx, o.dy⟩ : Bond), (1 : ℚ)) ∈
      (measure_twosite_run env svd2 lat sop ops).entries :=
  measure_twosite_fold_identity env svd2 lat sop hsvd o hidx hop hbond hsup hnorm
    ops ⟨[], [], []⟩ (fun kv hkv => absurd hkv (List.not_mem_nil kv)) ho

/-- Witness for C1 at a concrete instantiation: physical dimension 1,
unit environment weight, the identity gate on the horizontal
nearest-neighbor bond `dx = 1, dy = 0` of a 1×1 cell, and a rank-1
factorization oracle satisfying the SVD contract. -/
theorem measure_twosite_identity_one_wit :
    (¬((1 : ℤ) = 0 ∧ (0 : ℤ) = 0)) ∧
    ((1 : ℤ).natAbs + 1 ≤ 4 ∧ (0 : ℤ).natAbs + 1 ≤ 4) ∧
    normOf (⟨fun _ _ _ _ _ => 1⟩ : BlockEnv 1)
      (twoKey ⟨1, 1, Nat.one_pos, Nat.one_pos⟩ 0 1 0) ≠ 0 ∧
    ((0 : ℕ), (⟨0, 1, 0⟩ : Bond), (1 : ℚ)) ∈
      (measure_twosite_run (⟨fun _ _ _ _ _ => 1⟩ : BlockEnv 1)
        (fun o => [(o 0 0 0 0, fun _ _ => 1, fun _ _ => 1)])
        ⟨1, 1, Nat.one_pos, Nat.one_pos⟩ (fun _ _ => idOp 1)
        [⟨0, 0, 1, 0, idTwoOp 1, []⟩]).entries := by
  have hsvd : SVDSpec 1 (fun o => [(o 0 0 0 0, fun _ _ => 1, fun _ _ => 1)]) := by
    intro o2 k1 k2 b1 b2
    have e1 : k1 = 0 := Subsingleton.elim _ _
    have e2 : k2 = 0 := Subsingleton.elim _ _
    have e3 : b1 = 0 := Subsingleton.elim _ _
    have e4 : b2 = 0 := Subsingleton.elim _ _
    subst e1
    subst e2
    subst e3
    subst e4
    simp
  have hval : normOf (⟨fun _ _ _ _ _ => 1⟩ : BlockEnv 1)
      (twoKey ⟨1, 1, Nat.one_pos, Nat.one_pos⟩ 0 1 0) = 1 := by
    show contractBlock (⟨fun _ _ _ _ _ => 1⟩ : BlockEnv 1) 1 2
      ((twoKey ⟨1, 1, Nat.one_pos, Nat.one_pos⟩ 0 1 0).1) (fun _ => idOp 1) = 1
    unfold contractBlock
    rw [Fintype.sum_subsingleton _ (fun _ => (0 : Fin 1))]
    rw [Fintype.sum_subsingleton _ (fun _ => (0 : Fin 1))]
    simp [idOp]
  have hnorm : normOf (⟨fun _ _ _ _ _ => 1⟩ : BlockEnv 1)
      (twoKey ⟨1, 1, Nat.one_pos, Nat.one_pos⟩ 0 1 0) ≠ 0 := by
    rw [hval]
    exact one_ne_zero
  refine ⟨by decide, by decide, hnorm, ?_⟩
  exact measure_twosite_identity_one (⟨fun _ _ _ _ _ => 1⟩ : BlockEnv 1)
    (fun o => [(o 0 0 0 0, fun _ _ => 1, fun _ _ => 1)])
    ⟨1, 1, Nat.one_pos, Nat.one_pos⟩ (fun _ _ => idOp 1) hsvd
    [⟨0, 0, 1, 0, idTwoOp 1, []⟩] ⟨0, 0, 1, 0, idTwoOp 1, []⟩
    (List.mem_singleton_self _) rfl rfl (by decide) (by decide) hnorm
